import Mathlib

/-!
Shallow embedding of the neotracker block ingestion and reconciliation engine
(`BlockUpdater.save` / `BlockUpdater.revert`) and of the asset/contract
extraction subsystem (`getAsset`, `checkIsNEP5`, `getContractAndAsset`).

Numeric conventions: the source uses `BigNumber` (exact decimal arithmetic) on
decimal strings and stores fee columns via `toFixed(8)` (eight decimal places,
round-half-up).  We model decimal values as `ℚ` and `toFixed(8)` as the
rounding function `round8`; a stored decimal string is represented by its
rational value (the `toFixed(8)` rendering is canonical, so string equality of
stored fee columns coincides with equality of the rounded rationals).
Blockchain heights and block indices are modelled as `Int` (the height of the
empty projection is `-1`).
-/

namespace NeoTracker

/-- `BigNumber` half-up rounding of a rational to an integer: rounds to the
nearest integer, ties away from zero (BigNumber's default `ROUND_HALF_UP`). -/
def halfUp (q : ℚ) : ℤ :=
  if q < 0 then -⌊-q + 1/2⌋ else ⌊q + 1/2⌋

/-- `x.toFixed(8)`: the value stored for a fee column — `q` rounded half-up to
eight decimal places. -/
def round8 (q : ℚ) : ℚ :=
  (halfUp (q * 100000000) : ℚ) / 100000000

/-- A transaction, restricted to the fields `BlockUpdater.save` reads:
its declared system fee and network fee (decimal strings in the source,
modelled as exact rationals). -/
structure Tx where
  systemFee : ℚ
  networkFee : ℚ
  deriving DecidableEq, Repr, Inhabited

/-- An external input block (`Block` from `@neo-one/client`), restricted to the
fields `BlockUpdater.save` reads. -/
structure Block where
  index : Int
  hash : String
  previousBlockHash : String
  size : Int
  version : Int
  merkleRoot : String
  time : Int
  nonce : String
  nextConsensus : String
  script_invocation : String
  script_verification : String
  transactions : List Tx
  deriving DecidableEq, Repr, Inhabited

/-- A persisted `BlockModel` row (the BlockProjection), with the columns
written by `BlockUpdater.save`.  Fee columns hold the value stored by
`toFixed(8)` (see `round8`). -/
structure BlockModel where
  id : Int
  hash : String
  previous_block_id : Option Int
  previous_block_hash : Option String
  validator_address_id : Option String
  size : Int
  version : Int
  merkle_root : String
  time : Int
  nonce : String
  next_validator_address_id : String
  invocation_script : String
  verification_script : String
  transaction_count : Int
  system_fee : ℚ
  network_fee : ℚ
  aggregated_system_fee : ℚ
  deriving DecidableEq, Repr, Inhabited

/-- The storage owned by this core: the BlockProjection table, the
index→aggregated-fee ledger (`context.systemFee`), and the durable
processed-index cursor.  Sub-updater state (addresses, transactions,
previous-pointer chain) is external to the core (spec §1, §6) and not
modelled. -/
structure DB where
  blocks : List BlockModel
  systemFees : List (Int × ℚ)
  processedIndex : Int
  deriving DecidableEq, Repr, Inhabited

/-- The part of the `Context` record that the engine and the extraction
subsystem read and update: the current projection height (`-1` if empty), the
reference to the last committed block row, and the NEP5 blacklist.  The
storage and client handles (`context.db`, `context.client`, …) are passed as
separate arguments. -/
structure Context where
  currentHeight : Int
  prevBlock : Option BlockModel
  blacklistNEP5Hashes : List String
  deriving DecidableEq, Repr, Inhabited

/-- Errors surfaced by the storage layer or the blockchain client.
`unique` is the uniqueness-violation signal recognised by `isUniqueError`;
`notFound` is `throwIfNotFound`; `clientErr` is a failed `client.getBlock`;
`otherStorage` stands for any other storage error; `outOfFuel` marks
exhaustion of the recursion bound (the source has no such bound — spec §9
leaves the maximal fork depth open). -/
inductive Err where
  | unique
  | notFound
  | clientErr
  | otherStorage (msg : String)
  | outOfFuel
  deriving DecidableEq, Repr, Inhabited

deriving instance DecidableEq for Except

/-- `isUniqueError` from `neotracker-server-db`: recognises the
uniqueness-violation signal among storage errors. -/
def isUniqueError : Err → Bool
  | Err.unique => true
  | _ => false

/-- `BlockModel.query(db)...where('id', i).first()` / `findById(i)`:
the first row of the BlockProjection table with primary key `i`. -/
def DB.lookup (db : DB) (i : Int) : Option BlockModel :=
  db.blocks.find? (fun r => r.id = i)

/-- Delete the BlockProjection row with primary key `i`
(`blockModel.$query(db).delete()`). -/
def DB.deleteBlock (db : DB) (i : Int) : DB :=
  { db with blocks := db.blocks.filter (fun r => ¬ r.id = i) }

/-- Modelled from the spec: `getCurrentHeight` (from `./utils`, not under
`src/`) returns the Context's "current projection height (integer, -1 if
empty)" (spec §3). -/
def getCurrentHeight (context : Context) : Int :=
  context.currentHeight

/-- One step of the maximum-id scan behind `latestAtMost`: keep the row with
the larger id among the accumulator and `r`, ignoring rows above `index`. -/
def lamStep (index : Int) (acc : Option BlockModel) (r : BlockModel) : Option BlockModel :=
  match acc with
  | none => if r.id ≤ index then some r else none
  | some b => if r.id ≤ index then (if b.id < r.id then some r else some b) else some b

/-- Helper for `getPreviousBlockModel`: the row with the largest `id` not
exceeding `index` among `rows`. -/
def latestAtMost (rows : List BlockModel) (index : Int) : Option BlockModel :=
  rows.foldl (lamStep index) none

/-- Modelled from the spec: `getPreviousBlockModel` (from `./utils`, not under
`src/`) returns the previously committed block-projection row for a block
sitting at position `index`: "the committed block at `h`" with
`h = index - 1` that `Save` checks the incoming block's previous-hash against
(spec §4.1, case Append) — the most recent committed row strictly below
`index`, which on a contiguous chain is exactly the row at `index - 1` and is
absent when nothing is committed below.  In particular a row already present
at `index` itself (a concurrent or retried writer's row) is never returned,
so it cannot divert the consistency check.  The source's `context.prevBlock`
fast path is a cache of the same row and is not modelled separately. -/
def getPreviousBlockModel (db : DB) (index : Int) : Option BlockModel :=
  latestAtMost db.blocks (index - 1)

/-- Modelled from the spec: `context.systemFee.save({index, value})` appends
"a ledger entry recording index→aggregated-fee" (spec §4.1). -/
def systemFeeSave (db : DB) (index : Int) (value : ℚ) : DB :=
  { db with systemFees := db.systemFees ++ [(index, value)] }

/-- Modelled from the spec: `context.systemFee.revert(index)` removes "the
system-fee ledger entry" for `index` (spec §4.1 Revert). -/
def systemFeeRevert (db : DB) (index : Int) : DB :=
  { db with systemFees := db.systemFees.filter (fun e => ¬ e.1 = index) }

/-- Modelled from the spec: `ProcessedIndexUpdater.save` advances "the
'processed index' marker (a durable cursor) to `block.index`" (spec §4.1). -/
def processedIndexSave (db : DB) (index : Int) : DB :=
  { db with processedIndex := index }

/-- Modelled from the spec: `ProcessedIndexUpdater.revert` "roll[s] the
processed-index cursor back" below the reverted block's index
(spec §4.1 Revert). -/
def processedIndexRevert (db : DB) (index : Int) : DB :=
  { db with processedIndex := index - 1 }

/-- The row written by `BlockModel.insertAndReturn` in `BlockUpdater.save`
(part_001 lines 70–90), built from the incoming block and the previously
committed row (`prevBlockData`). -/
def mkRow (prevBlockModel : Option BlockModel) (block : Block) : BlockModel :=
  let systemFee : ℚ := block.transactions.foldl (fun sysFee t => sysFee + t.systemFee) 0
  let aggregatedSystemFee : ℚ :=
    match prevBlockModel with
    | none => systemFee
    | some p => p.aggregated_system_fee + systemFee
  { id := block.index
    hash := block.hash
    previous_block_id := prevBlockModel.map (fun p => p.id)
    previous_block_hash := prevBlockModel.map (fun p => p.hash)
    validator_address_id := prevBlockModel.map (fun p => p.next_validator_address_id)
    size := block.size
    version := block.version
    merkle_root := block.merkleRoot
    time := block.time
    nonce := block.nonce
    next_validator_address_id := block.nextConsensus
    invocation_script := block.script_invocation
    verification_script := block.script_verification
    transaction_count := block.transactions.length
    system_fee := round8 systemFee
    network_fee := round8 (block.transactions.foldl (fun networkFee t => networkFee + t.networkFee) 0)
    aggregated_system_fee := round8 aggregatedSystemFee }

/-- The exact (pre-rounding) per-block system fee: the sum of the block's
transactions' system fees, as computed by the `reduce` in part_001
lines 52–55. -/
def blockFee (block : Block) : ℚ :=
  block.transactions.foldl (fun sysFee t => sysFee + t.systemFee) 0

/-- The aggregated system fee value computed for `block` on top of
`prevBlockModel` (part_001 lines 56–59), before `toFixed(8)`. -/
def aggFee (prevBlockModel : Option BlockModel) (block : Block) : ℚ :=
  match prevBlockModel with
  | none => blockFee block
  | some p => p.aggregated_system_fee + blockFee block

/-- `BlockModel.insertAndReturn`: inserts the row, or fails with the
uniqueness-violation signal when a row with the same primary key already
exists (the storage layer's unique constraint on the block index). -/
def insertAndReturn (db : DB) (row : BlockModel) : Except Err (BlockModel × DB) :=
  if db.blocks.any (fun r => r.id = row.id) then Except.error Err.unique
  else Except.ok (row, { db with blocks := db.blocks ++ [row] })

/-- The `.catch` handler attached to the block insert (part_001 lines 91–100):
on a uniqueness violation, re-read the existing row at `block.index`
(`.where('id', block.index).first().throwIfNotFound()`) and use it as the
committed value; re-throw every other error unchanged. -/
def catchUnique (db : DB) (blockIndex : Int) (error : Err) : Except Err BlockModel :=
  if isUniqueError error then
    match DB.lookup db blockIndex with
    | some row => Except.ok row
    | none => Except.error Err.notFound
  else Except.error error

/-- `BlockUpdater.revert` (part_001 lines 163–197) on the state this core
owns.  The address / transactions / previous-pointer sub-updater reverts act
on external state (spec §6) and are identities here; the system-fee ledger
entry is removed, the BlockProjection row deleted, the processed-index cursor
rolled back, and the context height / previous-block pointer recomputed.
The recompute's result is modelled from the spec's Revert sentence: the new
pointer is "the now-previous block (height-1), which may itself be absent
(height becomes -1)" (spec §4.1 Revert) — the most recent row remaining at or
below `blockModel.id - 1` after the deletion.  (The source obtains it through
the missing `./utils` helper as
`getPreviousBlockModel(context, monitor, blockModel.id - 1)`, passing
`blockModel.id - 1` where `save` passes the incoming block's own index; the
two spec sentences pin the helper's result at each site — the committed block
at `h = index - 1` for Append's check, the block at height-1 here — so each
call is modelled from its own sentence rather than forcing one index
convention on the reconstructed helper.) -/
def revert (context : Context) (db : DB) (blockModel : BlockModel) : Context × DB :=
  let db1 := systemFeeRevert db blockModel.id
  let db2 := DB.deleteBlock db1 blockModel.id
  let db3 := processedIndexRevert db2 blockModel.id
  let prevPrevBlockModel := latestAtMost db3.blocks (blockModel.id - 1)
  ({ context with
      prevBlock := prevPrevBlockModel
      currentHeight :=
        match prevPrevBlockModel with
        | none => -1
        | some p => p.id },
    db3)

/-- `BlockUpdater.save` (part_001 lines 43–161) on the state this core owns.
`client` is `context.client.getBlock`; `fuel` bounds the recursion depth of
the fork-resolution algorithm (the source recurses unboundedly; each
recursive call follows a `revert`, so real executions are bounded by the
number of committed rows).  The concurrent fan-out (`Promise.all`) is
sequenced; the transactions / addresses / previous-pointer sub-updater saves
act on external state and are identities here. -/
def save (client : Int → Option Block) : Nat → Context → DB → Block → Except Err (Context × DB)
  | 0, _, _, _ => Except.error Err.outOfFuel
  | Nat.succ fuel, context, db, block =>
    let height := getCurrentHeight context
    if block.index = height + 1 then
      let prevBlockModel := getPreviousBlockModel db block.index
      let isConsistent :=
        match prevBlockModel with
        | none => true
        | some p => block.previousBlockHash = p.hash
      if isConsistent then
        let row := mkRow prevBlockModel block
        let inserted : Except Err (BlockModel × DB) :=
          match insertAndReturn db row with
          | Except.ok r => Except.ok r
          | Except.error e =>
            match catchUnique db block.index e with
            | Except.ok bm => Except.ok (bm, db)
            | Except.error e2 => Except.error e2
        match inserted with
        | Except.error e => Except.error e
        | Except.ok (blockModel, db1) =>
          let db2 := systemFeeSave db1 block.index (round8 (aggFee prevBlockModel block))
          let db3 := processedIndexSave db2 block.index
          Except.ok
            ({ context with prevBlock := some blockModel, currentHeight := blockModel.id }, db3)
      else
        match prevBlockModel with
        | none => Except.error Err.notFound
        | some pbm =>
          match client height with
          | none => Except.error Err.clientErr
          | some prevBlock2 =>
            let next := revert context db pbm
            save client fuel next.1 next.2 prevBlock2
    else if block.index = height then
      match DB.lookup db block.index with
      | none => Except.error Err.notFound
      | some blockModel =>
        if ¬ block.hash = blockModel.hash then
          let next := revert context db blockModel
          save client fuel next.1 next.2 block
        else Except.ok (context, db)
    else Except.ok (context, db)

/-- Processing a sequence of blocks one at a time with `save`, threading the
context/state, as the (out-of-scope) driving loop does. -/
def saveMany (client : Int → Option Block) (fuel : Nat) :
    Context × DB → List Block → Except Err (Context × DB)
  | st, [] => Except.ok st
  | st, b :: bs =>
    match save client fuel st.1 st.2 b with
    | Except.error e => Except.error e
    | Except.ok st2 => saveMany client fuel st2 bs

/-! ## Derived descriptions of committed chains

`chainRowsAux`/`chainRows` compute, given a list of input blocks, exactly the
BlockProjection rows that successive appends of those blocks commit (each row
is `mkRow` of the previous row and the block).  `ChainState` says a
context/storage pair is the state left by appending `bs` from the empty
projection; `GoodBlocks` says the inputs are a contiguous, hash-linked chain
starting at index 0. -/

/-- The rows committed by appending `bs` in order on top of the (optional)
previously committed row `pbm`. -/
def chainRowsAux : Option BlockModel → List Block → List BlockModel
  | _, [] => []
  | pbm, b :: bs => mkRow pbm b :: chainRowsAux (some (mkRow pbm b)) bs

/-- The rows committed by appending `bs` from the empty projection. -/
def chainRows (bs : List Block) : List BlockModel :=
  chainRowsAux none bs

/-- The last committed row after appending `bs` on top of `pbm` (or `pbm`
itself when `bs` is empty). -/
def chainLast (pbm : Option BlockModel) : List Block → Option BlockModel
  | [] => pbm
  | b :: bs => chainLast (some (mkRow pbm b)) bs

/-- The blocks' indices are contiguous from 0: the block at position `k` has
index `k`. -/
def GoodIdx (bs : List Block) : Prop :=
  ∀ k, k < bs.length → (bs.getD k default).index = (k : Int)

/-- Matching previous-hash links: each block's `previousBlockHash` is the hash
of the block before it. -/
def GoodLink (bs : List Block) : Prop :=
  ∀ k, k + 1 < bs.length → (bs.getD (k + 1) default).previousBlockHash = (bs.getD k default).hash

/-- A sequence of blocks with strictly increasing, contiguous indices from 0
and matching previous-hash links. -/
def GoodBlocks (bs : List Block) : Prop :=
  GoodIdx bs ∧ GoodLink bs

/-- `(ctx, db)` is the state this core owns after appending exactly `bs` from
the empty projection: the BlockProjection table holds the chain's rows, and
the context's previous-block pointer and height describe its top. -/
def ChainState (bs : List Block) (ctx : Context) (db : DB) : Prop :=
  db.blocks = chainRows bs ∧
  ctx.prevBlock = chainLast none bs ∧
  ctx.currentHeight = (bs.length : Int) - 1

/-- A value representable with eight decimal places — the domain on which the
`toFixed(8)` storage format is lossless. -/
def IsFixed8 (q : ℚ) : Prop :=
  round8 q = q

/-- The exact sum of the per-block system fees of the first `n` blocks. -/
def feePrefix (bs : List Block) (n : Nat) : ℚ :=
  ((bs.take n).map blockFee).sum

instance (bs : List Block) : Decidable (GoodIdx bs) :=
  inferInstanceAs (Decidable (∀ k, k < bs.length → (bs.getD k default).index = (k : Int)))

instance (bs : List Block) : Decidable (GoodLink bs) :=
  decidable_of_iff
    (∀ k, k < bs.length - 1 →
      (bs.getD (k + 1) default).previousBlockHash = (bs.getD k default).hash)
    (by
      constructor
      · intro h k hk
        exact h k (by omega)
      · intro h k hk
        exact h k (by omega))

instance (bs : List Block) : Decidable (GoodBlocks bs) :=
  inferInstanceAs (Decidable (GoodIdx bs ∧ GoodLink bs))

instance (bs : List Block) (ctx : Context) (db : DB) : Decidable (ChainState bs ctx db) :=
  inferInstanceAs (Decidable (_ ∧ _ ∧ _))

instance (q : ℚ) : Decidable (IsFixed8 q) :=
  inferInstanceAs (Decidable (round8 q = q))

/-- The context over the empty projection (height −1, no previous block). -/
def startContext : Context :=
  { currentHeight := -1, prevBlock := none, blacklistNEP5Hashes := [] }

/-- The empty storage. -/
def emptyDB : DB :=
  { blocks := [], systemFees := [], processedIndex := -1 }

/-! ## Concrete scenario inputs (used by counterexamples and witnesses) -/

/-- A transaction with the given system fee. -/
def demoTx (f : ℚ) : Tx :=
  { systemFee := f, networkFee := 0 }

/-- A block with the given index, hash, previous hash, and one transaction
with the given system fee. -/
def demoBlock (i : Int) (h p : String) (f : ℚ) : Block :=
  { index := i, hash := h, previousBlockHash := p, size := 1, version := 0,
    merkleRoot := "m", time := 0, nonce := "n", nextConsensus := "v",
    script_invocation := "", script_verification := "", transactions := [demoTx f] }

/-- The locally committed chain A0..A5 (diverging from B at index 3). -/
def chainA : List Block :=
  [demoBlock 0 "h0" "" 1, demoBlock 1 "h1" "h0" 1, demoBlock 2 "h2" "h1" 1,
   demoBlock 3 "a3" "h2" 1, demoBlock 4 "a4" "a3" 1, demoBlock 5 "a5" "a4" 1]

/-- The canonical chain B0..B5 (equal to A below index 3). -/
def chainB : List Block :=
  [demoBlock 0 "h0" "" 1, demoBlock 1 "h1" "h0" 1, demoBlock 2 "h2" "h1" 1,
   demoBlock 3 "b3" "h2" 2, demoBlock 4 "b4" "b3" 2, demoBlock 5 "b5" "b4" 2]

/-- A blockchain client serving the canonical chain B. -/
def demoClient (i : Int) : Option Block :=
  (chainB.filter (fun b => b.index = i)).head?

/-- The context after locally committing A0..A5. -/
def ctxA : Context :=
  { currentHeight := 5, prevBlock := chainLast none chainA, blacklistNEP5Hashes := [] }

/-- The storage after locally committing A0..A5. -/
def dbA : DB :=
  { blocks := chainRows chainA,
    systemFees := (chainRows chainA).map (fun r => (r.id, r.aggregated_system_fee)),
    processedIndex := 5 }

/-- The canonical block B5. -/
def blockB5 : Block :=
  chainB.getD 5 default

/-! ## Asset/contract extraction (part_000) -/

/-- The UTF-8 encoding of one character, as a list of byte values
(`Buffer.from(s, 'utf8')`). -/
def utf8Bytes (c : Char) : List Nat :=
  let n := c.toNat
  if n < 128 then [n]
  else if n < 2048 then [192 + n / 64, 128 + n % 64]
  else if n < 65536 then [224 + n / 4096, 128 + n / 64 % 64, 128 + n % 64]
  else [240 + n / 262144, 128 + n / 4096 % 64, 128 + n / 64 % 64, 128 + n % 64]

/-- A lowercase hexadecimal digit (`0`–`9`, `a`–`f`). -/
def hexDigit (n : Nat) : Char :=
  if n < 10 then Char.ofNat (48 + n) else Char.ofNat (87 + n)

/-- Two lowercase hex digits for one byte. -/
def hexByte (n : Nat) : List Char :=
  [hexDigit (n / 16 % 16), hexDigit (n % 16)]

/-- `Buffer.from(s, 'utf8').toString('hex')`: the lowercase hex rendering of
the UTF-8 bytes of `s`. -/
def utf8Hex (s : String) : String :=
  ⟨(s.data.map (fun c => (utf8Bytes c).flatMap hexByte)).flatten⟩

/-- Does `needle` occur at the start of `hay`? -/
def leadMatch : List Char → List Char → Bool
  | [], _ => true
  | _ :: _, [] => false
  | a :: as, b :: bs => a = b && leadMatch as bs

/-- `hay.includes(needle)` on character lists (JavaScript
`String.prototype.includes`): does `needle` occur contiguously anywhere in
`hay`? -/
def charsIncludes : List Char → List Char → Bool
  | hay, needle =>
    if leadMatch needle hay then true
    else
      match hay with
      | [] => false
      | _ :: t => charsIncludes t needle

/-- `s.includes(sub)` on strings. -/
def stringIncludes (s sub : String) : Bool :=
  charsIncludes s.data sub.data

/-- The JSON escape of one character inside a string literal
(`JSON.stringify` semantics: `"` and `\` get backslash escapes, the five
named control characters get short escapes, other control characters get
`\u00XX`). -/
def jsonEscapeChar (c : Char) : List Char :=
  if c = Char.ofNat 34 then [Char.ofNat 92, Char.ofNat 34]
  else if c = Char.ofNat 92 then [Char.ofNat 92, Char.ofNat 92]
  else if c = Char.ofNat 8 then [Char.ofNat 92, 'b']
  else if c = Char.ofNat 9 then [Char.ofNat 92, 't']
  else if c = Char.ofNat 10 then [Char.ofNat 92, 'n']
  else if c = Char.ofNat 12 then [Char.ofNat 92, 'f']
  else if c = Char.ofNat 13 then [Char.ofNat 92, 'r']
  else if c.toNat < 32 then
    [Char.ofNat 92, 'u', '0', '0', hexDigit (c.toNat / 16 % 16), hexDigit (c.toNat % 16)]
  else [c]

/-- `JSON.stringify` of a string value: a double-quoted, escaped literal. -/
def jsonStringify (s : String) : String :=
  ⟨Char.ofNat 34 :: (s.data.map jsonEscapeChar).flatten ++ [Char.ofNat 34]⟩

/-- `NEP5_ATTRIBUTES` (part_000 lines 50–52): the hex encodings of the six
canonical NEP5 method names. -/
def NEP5_ATTRIBUTES : List String :=
  (["totalSupply", "name", "symbol", "decimals", "balanceOf", "transfer"]).map utf8Hex

/-- Modelled from the spec: the classification tags `NEP5_CONTRACT_TYPE` and
`UNKNOWN_CONTRACT_TYPE` imported from `neotracker-server-db` (not under
`src/`) — the "token-standard or unknown" classification tag (spec §3). -/
def NEP5_CONTRACT_TYPE : String := "NEP5"

/-- See `NEP5_CONTRACT_TYPE`. -/
def UNKNOWN_CONTRACT_TYPE : String := "UNKNOWN"

/-- A smart contract observed inside a transaction (`Contract` from
`@neo-one/client`), restricted to the fields part_000 reads. -/
structure Contract where
  hash : String
  script : String
  parameters : List String
  returnType : String
  properties_storage : Bool
  name : String
  codeVersion : String
  author : String
  email : String
  description : String
  deriving DecidableEq, Repr, Inhabited

/-- An on-chain asset descriptor (`RegisterTransaction['asset']` /
`invocationData.asset`). -/
structure AssetDescriptor where
  type : String
  name : String
  amount : ℚ
  precision : ℚ
  owner : String
  admin : String
  deriving DecidableEq, Repr, Inhabited

/-- A confirmed transaction, as a closed sum over the type tags part_000
discriminates on (`RegisterTransaction`, `InvocationTransaction`,
`PublishTransaction`, anything else), each carrying `txid`,
`data.globalIndex`, and the type-specific payload read by the extraction
code. -/
inductive ConfirmedTransaction where
  | register (txid : String) (globalIndex : Int) (asset : AssetDescriptor)
  | invocation (txid : String) (globalIndex : Int) (asset : Option AssetDescriptor)
      (contracts : List Contract)
  | publish (txid : String) (globalIndex : Int) (contract : Contract)
  | other (txid : String) (globalIndex : Int)
  deriving DecidableEq, Repr, Inhabited

/-- `transaction.txid`. -/
def ConfirmedTransaction.txid : ConfirmedTransaction → String
  | ConfirmedTransaction.register t _ _ => t
  | ConfirmedTransaction.invocation t _ _ _ => t
  | ConfirmedTransaction.publish t _ _ => t
  | ConfirmedTransaction.other t _ => t

/-- `transaction.data.globalIndex`. -/
def ConfirmedTransaction.globalIndex : ConfirmedTransaction → Int
  | ConfirmedTransaction.register _ g _ => g
  | ConfirmedTransaction.invocation _ g _ _ => g
  | ConfirmedTransaction.publish _ g _ => g
  | ConfirmedTransaction.other _ g => g

/-- A `Partial<AssetModel>` row as synthesized by part_000 (`getAsset` and the
NEP5 branch of `getContractAndAsset`).  Decimal-string fields keep their
rational values; counter fields are the literal strings written by the
source. -/
structure AssetRow where
  id : String
  transaction_id : Int
  transaction_hash : String
  type : String
  name_raw : String
  symbol : String
  amount : ℚ
  precision : ℚ
  owner : Option String
  admin_address_id : Option String
  block_time : Int
  issued : String
  address_count : String
  transfer_count : String
  transaction_count : String
  aggregate_block_id : Int
  deriving DecidableEq, Repr, Inhabited

/-- A `Partial<ContractModel>` row as built by `getContractAndAsset`. -/
structure ContractRow where
  id : String
  script : String
  parameters_raw : String
  return_type : String
  needs_storage : Bool
  name : String
  version : String
  author : String
  email : String
  description : String
  transaction_id : Int
  transaction_hash : String
  block_time : Int
  block_id : Int
  type : String
  deriving DecidableEq, Repr, Inhabited

/-- The asset descriptor read by `getAsset` (part_000 lines 16–23): the asset
of a registration transaction, or the asset-creation data of an invocation
transaction. -/
def txAsset : ConfirmedTransaction → Option AssetDescriptor
  | ConfirmedTransaction.register _ _ a => some a
  | ConfirmedTransaction.invocation _ _ a _ => a
  | _ => none

/-- `getAsset` (part_000 lines 15–48): synthesize an AssetProjection row from
a registration transaction's asset, or an invocation transaction's
asset-creation data; otherwise nothing. -/
def getAsset (transaction : ConfirmedTransaction) (blockTime : Int) : Option AssetRow :=
  match txAsset transaction with
  | none => none
  | some a =>
    some
      { id := transaction.txid
        transaction_id := transaction.globalIndex
        transaction_hash := transaction.txid
        type := a.type
        name_raw := jsonStringify a.name
        symbol := jsonStringify a.name
        amount := a.amount
        precision := a.precision
        owner := some a.owner
        admin_address_id := some a.admin
        block_time := blockTime
        issued := "0"
        address_count := "0"
        transfer_count := "0"
        transaction_count := "0"
        aggregate_block_id := -1 }

/-- `checkIsNEP5` (part_000 lines 54–60): a contract is classified NEP5 iff
its hash is not blacklisted and its script contains every one of the six
hex-encoded method names. -/
def checkIsNEP5 (context : Context) (contract : Contract) : Bool :=
  if context.blacklistNEP5Hashes.contains contract.hash then false
  else NEP5_ATTRIBUTES.all (fun a => stringIncludes contract.script a)

/-- The outcome of one external contract-metadata query
(`nep5Contract.name(monitor)` etc.): a value, or a rejection carrying an
error message. -/
structure Nep5Queries where
  name : Except String String
  symbol : Except String String
  decimals : Except String ℚ
  totalSupply : Except String ℚ
  deriving Repr, Inhabited

/-- The result record of `getContractAndAsset`; the live token-contract
handle (`ReadSmartContract`) is represented by the bound contract's hash. -/
structure ContractAndAsset where
  asset : Option AssetRow
  contract : ContractRow
  nep5Contract : Option String
  deriving DecidableEq, Repr, Inhabited

/-- `getContractAndAsset` (part_000 lines 62–143): build the ContractProjection
row with the NEP5/unknown classification tag; for NEP5 contracts query
`name`/`symbol`/`decimals`/`totalSupply` (the latter defaulting to zero on
failure, the others propagating their failure) and synthesize the
AssetProjection row.  `queries` models the RPCs issued through the contract
handle bound to `contract.hash`. -/
def getContractAndAsset (context : Context) (queries : Nep5Queries)
    (transaction : ConfirmedTransaction) (contract : Contract)
    (blockIndex blockTime : Int) : Except String ContractAndAsset :=
  let isNEP5 := checkIsNEP5 context contract
  let contractModel : ContractRow :=
    { id := contract.hash
      script := contract.script
      parameters_raw :=
        "[" ++ String.intercalate "," (contract.parameters.map jsonStringify) ++ "]"
      return_type := contract.returnType
      needs_storage := contract.properties_storage
      name := contract.name
      version := contract.codeVersion
      author := contract.author
      email := contract.email
      description := contract.description
      transaction_id := transaction.globalIndex
      transaction_hash := transaction.txid
      block_time := blockTime
      block_id := blockIndex
      type := if isNEP5 then NEP5_CONTRACT_TYPE else UNKNOWN_CONTRACT_TYPE }
  if isNEP5 then
    match queries.name with
    | Except.error e => Except.error e
    | Except.ok nm =>
      match queries.symbol with
      | Except.error e => Except.error e
      | Except.ok sy =>
        match queries.decimals with
        | Except.error e => Except.error e
        | Except.ok dec =>
          let totalSupply : ℚ :=
            match queries.totalSupply with
            | Except.error _ => 0
            | Except.ok v => v
          Except.ok
            { asset :=
                some
                  { id := contractModel.id
                    transaction_id := transaction.globalIndex
                    transaction_hash := transaction.txid
                    type := "NEP5"
                    name_raw := jsonStringify nm
                    symbol := sy
                    amount := totalSupply
                    precision := dec
                    owner := none
                    admin_address_id := none
                    block_time := blockTime
                    issued := "0"
                    address_count := "0"
                    transfer_count := "0"
                    transaction_count := "0"
                    aggregate_block_id := -1 }
              contract := contractModel
              nep5Contract := some contract.hash }
  else
    Except.ok { asset := none, contract := contractModel, nep5Contract := none }

/-- A bytecode string containing all six NEP5 method-name hex sequences. -/
def demoScript : String :=
  String.intercalate "00" NEP5_ATTRIBUTES

/-- A contract whose script passes the NEP5 heuristic. -/
def demoContract : Contract :=
  { hash := "c1", script := demoScript, parameters := ["String"],
    returnType := "ByteArray", properties_storage := true, name := "Token",
    codeVersion := "1", author := "a", email := "e", description := "d" }

/-- Metadata queries that all succeed; the symbol value contains a double
quote to exhibit that it is stored unescaped. -/
def demoQueriesOk : Nep5Queries :=
  { name := Except.ok "Tok", symbol := Except.ok "TK\"", decimals := Except.ok 8,
    totalSupply := Except.ok 100 }

/-- A publish transaction carrying `demoContract`. -/
def demoTxPublish : ConfirmedTransaction :=
  ConfirmedTransaction.publish "t1" 7 demoContract

/-- A registration transaction carrying an asset descriptor. -/
def demoTxRegister : ConfirmedTransaction :=
  ConfirmedTransaction.register "t2" 8
    { type := "Token", name := "My \"Asset\"", amount := 100, precision := 8,
      owner := "own", admin := "adm" }

/-! ## Supporting lemmas: fixed-point arithmetic -/

theorem halfUp_intCast (z : ℤ) : halfUp (z : ℚ) = z := by
  unfold halfUp
  split_ifs with h
  · have h1 : ⌊-(z : ℚ) + 1/2⌋ = -z := by
      rw [Int.floor_eq_iff]
      constructor
      · push_cast
        linarith
      · push_cast
        linarith
    rw [h1, neg_neg]
  · have h1 : ⌊(z : ℚ) + 1/2⌋ = z := by
      rw [Int.floor_eq_iff]
      constructor
      · linarith
      · linarith
    rw [h1]

theorem isFixed8_iff (q : ℚ) : IsFixed8 q ↔ ∃ z : ℤ, q = (z : ℚ) / 100000000 := by
  constructor
  · intro h
    exact ⟨halfUp (q * 100000000), h.symm⟩
  · rintro ⟨z, rfl⟩
    unfold IsFixed8 round8
    have h1 : (z : ℚ) / 100000000 * 100000000 = (z : ℚ) := by
      field_simp
    rw [h1, halfUp_intCast]

theorem IsFixed8.add {a b : ℚ} (ha : IsFixed8 a) (hb : IsFixed8 b) : IsFixed8 (a + b) := by
  rcases (isFixed8_iff a).1 ha with ⟨x, rfl⟩
  rcases (isFixed8_iff b).1 hb with ⟨y, rfl⟩
  refine (isFixed8_iff _).2 ⟨x + y, ?_⟩
  push_cast
  ring

theorem isFixed8_zero : IsFixed8 0 :=
  (isFixed8_iff 0).2 ⟨0, by norm_num⟩

theorem isFixed8_foldl (ts : List Tx) (h : ∀ t ∈ ts, IsFixed8 t.systemFee) :
    ∀ a, IsFixed8 a → IsFixed8 (ts.foldl (fun sysFee t => sysFee + t.systemFee) a) := by
  induction ts with
  | nil => intro a ha; exact ha
  | cons t ts ih =>
    intro a ha
    exact ih (fun u hu => h u (List.mem_cons_of_mem _ hu)) _
      (ha.add (h t (List.mem_cons_self _ _)))

theorem blockFee_isFixed8 (b : Block) (h : ∀ t ∈ b.transactions, IsFixed8 t.systemFee) :
    IsFixed8 (blockFee b) :=
  isFixed8_foldl _ h 0 isFixed8_zero

/-! ## Supporting lemmas: the maximum-id scan -/

theorem lamStep_some_le (index : Int) (acc : Option BlockModel) (r : BlockModel)
    (hacc : ∀ b, acc = some b → b.id ≤ index) :
    ∀ b, lamStep index acc r = some b → b.id ≤ index := by
  intro b hb
  cases acc with
  | none =>
    simp only [lamStep] at hb
    by_cases h1 : r.id ≤ index
    · rw [if_pos h1] at hb
      injection hb with h
      subst h
      exact h1
    · rw [if_neg h1] at hb
      exact Option.noConfusion hb
  | some b0 =>
    simp only [lamStep] at hb
    by_cases h1 : r.id ≤ index
    · rw [if_pos h1] at hb
      by_cases h2 : b0.id < r.id
      · rw [if_pos h2] at hb
        injection hb with h
        subst h
        exact h1
      · rw [if_neg h2] at hb
        injection hb with h
        subst h
        exact hacc _ rfl
    · rw [if_neg h1] at hb
      injection hb with h
      subst h
      exact hacc _ rfl

theorem lamStep_eq_none (index : Int) (acc : Option BlockModel) (r : BlockModel)
    (h : lamStep index acc r = none) : acc = none ∧ ¬ r.id ≤ index := by
  cases acc with
  | none =>
    simp only [lamStep] at h
    by_cases h1 : r.id ≤ index
    · rw [if_pos h1] at h
      exact Option.noConfusion h
    · exact ⟨rfl, h1⟩
  | some b0 =>
    simp only [lamStep] at h
    by_cases h1 : r.id ≤ index
    · rw [if_pos h1] at h
      by_cases h2 : b0.id < r.id
      · rw [if_pos h2] at h
        exact Option.noConfusion h
      · rw [if_neg h2] at h
        exact Option.noConfusion h
    · rw [if_neg h1] at h
      exact Option.noConfusion h

theorem lamStep_mono (index : Int) (acc : Option BlockModel) (r : BlockModel)
    (b0 : BlockModel) (hb0 : acc = some b0) :
    ∀ b, lamStep index acc r = some b → b0.id ≤ b.id := by
  subst hb0
  intro b hb
  simp only [lamStep] at hb
  by_cases h1 : r.id ≤ index
  · rw [if_pos h1] at hb
    by_cases h2 : b0.id < r.id
    · rw [if_pos h2] at hb
      injection hb with h
      subst h
      omega
    · rw [if_neg h2] at hb
      injection hb with h
      subst h
      exact le_refl _
  · rw [if_neg h1] at hb
    injection hb with h
    subst h
    exact le_refl _

theorem lamStep_ge_arg (index : Int) (acc : Option BlockModel) (r : BlockModel)
    (hle : r.id ≤ index) : ∀ b, lamStep index acc r = some b → r.id ≤ b.id := by
  intro b hb
  cases acc with
  | none =>
    simp only [lamStep, if_pos hle] at hb
    injection hb with h
    subst h
    exact le_refl _
  | some b0 =>
    simp only [lamStep, if_pos hle] at hb
    by_cases h2 : b0.id < r.id
    · rw [if_pos h2] at hb
      injection hb with h
      subst h
      exact le_refl _
    · rw [if_neg h2] at hb
      injection hb with h
      subst h
      omega

theorem lamStep_src (index : Int) (acc : Option BlockModel) (r : BlockModel) :
    ∀ b, lamStep index acc r = some b → acc = some b ∨ (b = r ∧ r.id ≤ index) := by
  intro b hb
  cases acc with
  | none =>
    simp only [lamStep] at hb
    by_cases h1 : r.id ≤ index
    · rw [if_pos h1] at hb
      injection hb with h
      exact Or.inr ⟨h.symm, h1⟩
    · rw [if_neg h1] at hb
      exact Option.noConfusion hb
  | some b0 =>
    simp only [lamStep] at hb
    by_cases h1 : r.id ≤ index
    · rw [if_pos h1] at hb
      by_cases h2 : b0.id < r.id
      · rw [if_pos h2] at hb
        injection hb with h
        exact Or.inr ⟨h.symm, h1⟩
      · rw [if_neg h2] at hb
        injection hb with h
        rw [h]
        exact Or.inl rfl
    · rw [if_neg h1] at hb
      injection hb with h
      rw [h]
      exact Or.inl rfl

theorem lamStep_foldl_spec (index : Int) :
    ∀ (l : List BlockModel) (acc : Option BlockModel),
      (∀ b, acc = some b → b.id ≤ index) →
      (l.foldl (lamStep index) acc = none →
          acc = none ∧ ∀ r ∈ l, ¬ r.id ≤ index) ∧
        (∀ b, l.foldl (lamStep index) acc = some b →
          (acc = some b ∨ (b ∈ l ∧ b.id ≤ index)) ∧
            (∀ b0, acc = some b0 → b0.id ≤ b.id) ∧
            (∀ r ∈ l, r.id ≤ index → r.id ≤ b.id)) := by
  intro l
  induction l with
  | nil =>
    intro acc hacc
    simp only [List.foldl_nil]
    constructor
    · intro h
      exact ⟨h, by simp⟩
    · intro b hb
      refine ⟨Or.inl hb, ?_, by simp⟩
      intro b0 hb0
      rw [hb0] at hb
      injection hb with hbb
      rw [hbb]
  | cons r t ih =>
    intro acc hacc
    simp only [List.foldl_cons]
    obtain ⟨ihn, ihs⟩ := ih (lamStep index acc r) (lamStep_some_le index acc r hacc)
    constructor
    · intro hres
      obtain ⟨hz, hall⟩ := ihn hres
      obtain ⟨haccn, hrid⟩ := lamStep_eq_none index acc r hz
      refine ⟨haccn, ?_⟩
      intro r2 hr2
      rcases List.mem_cons.1 hr2 with h | h
      · rw [h]; exact hrid
      · exact hall r2 h
    · intro b hres
      obtain ⟨hsrc, hge, hmax⟩ := ihs b hres
      refine ⟨?_, ?_, ?_⟩
      · rcases hsrc with h | h
        · rcases lamStep_src index acc r b h with h2 | h2
          · exact Or.inl h2
          · exact Or.inr ⟨h2.1 ▸ List.mem_cons_self _ _, h2.1 ▸ h2.2⟩
        · exact Or.inr ⟨List.mem_cons_of_mem _ h.1, h.2⟩
      · intro b0 hb0
        cases hmid : lamStep index acc r with
        | none =>
          obtain ⟨hn, _⟩ := lamStep_eq_none index acc r hmid
          rw [hb0] at hn
          exact Option.noConfusion hn
        | some bm =>
          have h1 : b0.id ≤ bm.id := lamStep_mono index acc r b0 hb0 bm hmid
          have h2 : bm.id ≤ b.id := hge bm hmid
          omega
      · intro r2 hr2 hle
        rcases List.mem_cons.1 hr2 with h | h
        · subst h
          cases hmid : lamStep index acc r2 with
          | none =>
            obtain ⟨_, hrid⟩ := lamStep_eq_none index acc r2 hmid
            exact absurd hle hrid
          | some bm =>
            have h1 : r2.id ≤ bm.id := lamStep_ge_arg index acc r2 hle bm hmid
            have h2 : bm.id ≤ b.id := hge bm hmid
            omega
        · exact hmax r2 h hle

theorem latestAtMost_eq_none (l : List BlockModel) (index : Int)
    (h : ∀ r ∈ l, ¬ r.id ≤ index) : latestAtMost l index = none := by
  cases heq : latestAtMost l index with
  | none => rfl
  | some b =>
    exfalso
    obtain ⟨hsrc, -, -⟩ :=
      (lamStep_foldl_spec index l none (fun b hb => Option.noConfusion hb)).2 b heq
    rcases hsrc with hs | hs
    · exact Option.noConfusion hs
    · exact h b hs.1 hs.2

theorem latestAtMost_eq_some (l : List BlockModel) (index : Int) (p : BlockModel)
    (hp : p ∈ l) (hple : p.id ≤ index)
    (hmax : ∀ r ∈ l, r.id ≤ index → r.id ≤ p.id)
    (hinj : ∀ r ∈ l, r.id = p.id → r = p) :
    latestAtMost l index = some p := by
  cases heq : latestAtMost l index with
  | none =>
    exfalso
    obtain ⟨-, hall⟩ :=
      (lamStep_foldl_spec index l none (fun b hb => Option.noConfusion hb)).1 heq
    exact hall p hp hple
  | some b =>
    obtain ⟨hsrc, -, hbmax⟩ :=
      (lamStep_foldl_spec index l none (fun b hb => Option.noConfusion hb)).2 b heq
    rcases hsrc with hs | hs
    · exact Option.noConfusion hs
    · have h1 : b.id ≤ p.id := hmax b hs.1 hs.2
      have h2 : p.id ≤ b.id := hbmax p hp hple
      have h3 : b = p := hinj b hs.1 (le_antisymm h1 h2)
      rw [h3]

theorem latestAtMost_skip (l : List BlockModel) (j : Int)
    (h : ∀ r ∈ l, ¬ r.id = j) : latestAtMost l j = latestAtMost l (j - 1) := by
  have key : ∀ (l2 : List BlockModel) (acc : Option BlockModel), (∀ r ∈ l2, ¬ r.id = j) →
      l2.foldl (lamStep j) acc = l2.foldl (lamStep (j - 1)) acc := by
    intro l2
    induction l2 with
    | nil => intro acc _; rfl
    | cons r t ih =>
      intro acc hne
      simp only [List.foldl_cons]
      have hiff : r.id ≤ j ↔ r.id ≤ j - 1 := by
        have hrne : ¬ r.id = j := hne r (List.mem_cons_self _ _)
        omega
      have hstep : lamStep j acc r = lamStep (j - 1) acc r := by
        cases acc with
        | none =>
          simp only [lamStep]
          exact if_congr hiff rfl rfl
        | some b0 =>
          simp only [lamStep]
          exact if_congr hiff rfl rfl
      rw [hstep]
      exact ih _ (fun r2 h2 => hne r2 (List.mem_cons_of_mem _ h2))
  exact key l none h

/-! ## Supporting lemmas: primary-key search -/

theorem find?_unique (l : List BlockModel) (i : Int) (p : BlockModel) :
    p ∈ l → p.id = i → (∀ r ∈ l, r.id = i → r = p) →
    l.find? (fun r => r.id = i) = some p := by
  induction l with
  | nil => intro hp _ _; exact absurd hp (List.not_mem_nil p)
  | cons r t ih =>
    intro hp hpi hinj
    by_cases hr : r.id = i
    · have hrp : r = p := hinj r (List.mem_cons_self _ _) hr
      rw [List.find?_cons_of_pos _ (by simp [hr]), hrp]
    · rw [List.find?_cons_of_neg _ (by simp [hr])]
      refine ih ?_ hpi (fun r2 h2 => hinj r2 (List.mem_cons_of_mem _ h2))
      rcases List.mem_cons.1 hp with h | h
      · exfalso
        rw [← h] at hr
        exact hr hpi
      · exact h

theorem find?_eq_none_of (l : List BlockModel) (i : Int)
    (h : ∀ r ∈ l, ¬ r.id = i) : l.find? (fun r => r.id = i) = none := by
  rw [List.find?_eq_none]
  intro r hr
  simp [h r hr]

/-! ## Supporting lemmas: committed chains -/

theorem chainRowsAux_length (bs : List Block) :
    ∀ pbm, (chainRowsAux pbm bs).length = bs.length := by
  induction bs with
  | nil => intro pbm; rfl
  | cons b t ih =>
    intro pbm
    simp only [chainRowsAux, List.length_cons, ih]

theorem chainLast_snoc (bs : List Block) :
    ∀ pbm b, chainLast pbm (bs ++ [b]) = some (mkRow (chainLast pbm bs) b) := by
  induction bs with
  | nil => intro pbm b; rfl
  | cons x t ih =>
    intro pbm b
    simp only [List.cons_append, chainLast]
    exact ih _ b

theorem chainRowsAux_snoc (bs : List Block) :
    ∀ pbm b, chainRowsAux pbm (bs ++ [b]) =
      chainRowsAux pbm bs ++ [mkRow (chainLast pbm bs) b] := by
  induction bs with
  | nil => intro pbm b; rfl
  | cons x t ih =>
    intro pbm b
    simp only [List.cons_append, chainRowsAux, chainLast]
    rw [List.append_eq, ih]

theorem chainRowsAux_getD (bs : List Block) :
    ∀ pbm (k : Nat), k < bs.length →
      (chainRowsAux pbm bs).getD k default =
        mkRow (chainLast pbm (bs.take k)) (bs.getD k default) := by
  induction bs with
  | nil =>
    intro pbm k hk
    exact absurd hk (by simp)
  | cons b t ih =>
    intro pbm k hk
    cases k with
    | zero => rfl
    | succ k =>
      simp only [chainRowsAux, List.getD_cons_succ, List.take_succ_cons, chainLast]
      exact ih (some (mkRow pbm b)) k (by simpa using hk)

theorem chainLast_eq_getD (bs : List Block) :
    ∀ pbm, bs ≠ [] →
      chainLast pbm bs = some ((chainRowsAux pbm bs).getD (bs.length - 1) default) := by
  induction bs with
  | nil => intro pbm h; exact absurd rfl h
  | cons b t ih =>
    intro pbm _
    cases ht : t with
    | nil => rfl
    | cons x u =>
      rw [← ht]
      have htne : t ≠ [] := by rw [ht]; simp
      simp only [chainLast, chainRowsAux]
      rw [ih (some (mkRow pbm b)) htne]
      have hlen : (b :: t).length - 1 = (t.length - 1) + 1 := by
        rw [ht]
        simp
      rw [hlen, List.getD_cons_succ]

theorem mkRow_id (pbm : Option BlockModel) (b : Block) : (mkRow pbm b).id = b.index := rfl

theorem mkRow_hash (pbm : Option BlockModel) (b : Block) : (mkRow pbm b).hash = b.hash := rfl

theorem chainRows_getD_id (bs : List Block) (hg : GoodIdx bs) (k : Nat) (hk : k < bs.length) :
    ((chainRows bs).getD k default).id = (k : Int) := by
  unfold chainRows
  rw [chainRowsAux_getD bs none k hk, mkRow_id]
  exact hg k hk

theorem chainRows_mem_spec (bs : List Block) (hg : GoodIdx bs) :
    ∀ r ∈ chainRows bs, ∃ k : Nat, k < bs.length ∧
      r = (chainRows bs).getD k default ∧ r.id = (k : Int) := by
  intro r hr
  obtain ⟨k, hk, heq⟩ := List.mem_iff_getElem.1 hr
  have hk2 : k < bs.length := by
    rw [← chainRowsAux_length bs none]
    exact hk
  have hg2 : (chainRows bs).getD k default = r := by
    rw [List.getD_eq_getElem _ _ hk]
    exact heq
  refine ⟨k, hk2, hg2.symm, ?_⟩
  rw [← hg2]
  exact chainRows_getD_id bs hg k hk2

theorem chainRows_id_bound (bs : List Block) (hg : GoodIdx bs) :
    ∀ r ∈ chainRows bs, 0 ≤ r.id ∧ r.id < (bs.length : Int) := by
  intro r hr
  obtain ⟨k, hk, -, hid⟩ := chainRows_mem_spec bs hg r hr
  constructor
  · rw [hid]; exact_mod_cast Nat.zero_le k
  · rw [hid]; exact_mod_cast hk

theorem chainRows_id_inj (bs : List Block) (hg : GoodIdx bs) :
    ∀ r ∈ chainRows bs, ∀ r2 ∈ chainRows bs, r.id = r2.id → r = r2 := by
  intro r hr r2 hr2 heq
  obtain ⟨k, hk, hrk, hid⟩ := chainRows_mem_spec bs hg r hr
  obtain ⟨k2, hk2, hrk2, hid2⟩ := chainRows_mem_spec bs hg r2 hr2
  have : (k : Int) = (k2 : Int) := by rw [← hid, ← hid2, heq]
  have hkk : k = k2 := by exact_mod_cast this
  rw [hrk, hrk2, hkk]

theorem chainRows_length (bs : List Block) : (chainRows bs).length = bs.length :=
  chainRowsAux_length bs none

theorem chainRows_getD_mem (bs : List Block) (k : Nat) (hk : k < bs.length) :
    (chainRows bs).getD k default ∈ chainRows bs := by
  have hlt : k < (chainRows bs).length := by
    rw [chainRows_length]
    exact hk
  rw [List.getD_eq_getElem _ _ hlt]
  exact List.getElem_mem hlt

theorem chainLast_eq_getD_none (bs : List Block) (hne : bs ≠ []) :
    chainLast none bs = some ((chainRows bs).getD (bs.length - 1) default) :=
  chainLast_eq_getD bs none hne

theorem gpbm_chainRows_top (bs : List Block) (hg : GoodIdx bs) (hne : bs ≠ [])
    (index : Int) (hidx : (bs.length : Int) - 1 ≤ index) :
    latestAtMost (chainRows bs) index = chainLast none bs := by
  have hlen : 0 < bs.length := List.length_pos.2 hne
  have hklt : bs.length - 1 < bs.length := by omega
  have hpid : ((chainRows bs).getD (bs.length - 1) default).id = ((bs.length - 1 : Nat) : Int) :=
    chainRows_getD_id bs hg _ hklt
  have hmem : (chainRows bs).getD (bs.length - 1) default ∈ chainRows bs :=
    chainRows_getD_mem bs _ hklt
  rw [chainLast_eq_getD_none bs hne]
  refine latestAtMost_eq_some _ _ _ hmem ?_ ?_ ?_
  · rw [hpid]
    have : ((bs.length - 1 : Nat) : Int) = (bs.length : Int) - 1 := by omega
    omega
  · intro r hr _
    have h1 := (chainRows_id_bound bs hg r hr).2
    rw [hpid]
    omega
  · intro r hr hid
    exact chainRows_id_inj bs hg r hr _ hmem hid

theorem lookup_chainRows (bs : List Block) (hg : GoodIdx bs) (k : Nat) (hk : k < bs.length) :
    (chainRows bs).find? (fun r => r.id = (k : Int)) =
      some ((chainRows bs).getD k default) := by
  have hpid : ((chainRows bs).getD k default).id = (k : Int) := chainRows_getD_id bs hg k hk
  have hmem : (chainRows bs).getD k default ∈ chainRows bs := chainRows_getD_mem bs k hk
  refine find?_unique _ _ _ hmem hpid ?_
  intro r hr hid
  exact chainRows_id_inj bs hg r hr _ hmem (by rw [hid, hpid])

theorem goodIdx_append_left (bs bs2 : List Block) (hg : GoodIdx (bs ++ bs2)) :
    GoodIdx bs := by
  intro k hk
  have h1 := hg k (by rw [List.length_append]; omega)
  rwa [List.getD_append _ _ _ _ hk] at h1

/-! ## Supporting lemmas: unfolding `save` -/

theorem save_stale_unfold (client : Int → Option Block) (fuel : Nat) (ctx : Context)
    (db : DB) (b : Block) (bm : BlockModel)
    (hidx1 : ¬ b.index = ctx.currentHeight + 1)
    (hidx2 : b.index = ctx.currentHeight)
    (hbm : DB.lookup db b.index = some bm)
    (hne : ¬ b.hash = bm.hash) :
    save client (fuel + 1) ctx db b =
      save client fuel (revert ctx db bm).1 (revert ctx db bm).2 b := by
  simp only [save, getCurrentHeight]
  rw [if_neg hidx1, if_pos hidx2, hbm]
  dsimp only
  rw [if_pos hne]

theorem save_fork_unfold (client : Int → Option Block) (fuel : Nat) (ctx : Context)
    (db : DB) (b : Block) (pbm : BlockModel) (c : Block)
    (hidx : b.index = ctx.currentHeight + 1)
    (hpbm : getPreviousBlockModel db b.index = some pbm)
    (hne : ¬ b.previousBlockHash = pbm.hash)
    (hc : client ctx.currentHeight = some c) :
    save client (fuel + 1) ctx db b =
      save client fuel (revert ctx db pbm).1 (revert ctx db pbm).2 c := by
  simp only [save, getCurrentHeight]
  rw [if_pos hidx, hpbm]
  dsimp only
  rw [if_neg (by simpa using hne), hc]

theorem save_append_step (client : Int → Option Block) (fuel : Nat) (ctx : Context)
    (db : DB) (bs : List Block) (b : Block)
    (hg : GoodIdx bs)
    (hcs : ChainState bs ctx db)
    (hidx : b.index = (bs.length : Int))
    (hlink : ∀ p, chainLast none bs = some p → b.previousBlockHash = p.hash) :
    ∃ ctx2 db2, save client (fuel + 1) ctx db b = Except.ok (ctx2, db2) ∧
      ChainState (bs ++ [b]) ctx2 db2 := by
  obtain ⟨hdb, hprev, hh⟩ := hcs
  have hcond : b.index = ctx.currentHeight + 1 := by
    rw [hh, hidx]
    ring
  have hgp : getPreviousBlockModel db b.index = chainLast none bs := by
    unfold getPreviousBlockModel
    rw [hdb]
    by_cases hbs : bs = []
    · subst hbs
      rfl
    · exact gpbm_chainRows_top bs hg hbs (b.index - 1) (by omega)
  have hany : ¬ (db.blocks.any (fun r => r.id = (mkRow (chainLast none bs) b).id) = true) := by
    rw [List.any_eq_true]
    rintro ⟨r, hr, hrid⟩
    rw [hdb] at hr
    have hb := (chainRows_id_bound bs hg r hr).2
    simp only [decide_eq_true_eq] at hrid
    rw [mkRow_id, hidx] at hrid
    omega
  have hsave : save client (fuel + 1) ctx db b = Except.ok
      ({ ctx with
          prevBlock := some (mkRow (chainLast none bs) b)
          currentHeight := (mkRow (chainLast none bs) b).id },
        { db with
          blocks := db.blocks ++ [mkRow (chainLast none bs) b]
          systemFees := db.systemFees ++ [(b.index, round8 (aggFee (chainLast none bs) b))]
          processedIndex := b.index }) := by
    simp only [save, getCurrentHeight]
    rw [if_pos hcond, hgp]
    cases hcl : chainLast none bs with
    | none =>
      dsimp only
      rw [if_pos rfl]
      unfold insertAndReturn
      rw [if_neg (by rw [hcl] at hany; exact hany)]
      rfl
    | some p =>
      dsimp only
      rw [if_pos (by simp [hlink p hcl])]
      unfold insertAndReturn
      rw [if_neg (by rw [hcl] at hany; exact hany)]
      rfl
  refine ⟨_, _, hsave, ?_, ?_, ?_⟩
  · show db.blocks ++ [mkRow (chainLast none bs) b] = chainRows (bs ++ [b])
    rw [hdb]
    exact (chainRowsAux_snoc bs none b).symm
  · show some (mkRow (chainLast none bs) b) = chainLast none (bs ++ [b])
    rw [chainLast_snoc]
  · show (mkRow (chainLast none bs) b).id = ((bs ++ [b]).length : Int) - 1
    rw [mkRow_id, hidx]
    simp only [List.length_append, List.length_cons, List.length_nil]
    push_cast
    omega

/-! ## Supporting lemmas: reverting the top of a committed chain -/

theorem revert_chain_step (ctx : Context) (db : DB) (bs : List Block) (b : Block)
    (hg : GoodIdx (bs ++ [b]))
    (hcs : ChainState (bs ++ [b]) ctx db) :
    ChainState bs (revert ctx db (mkRow (chainLast none bs) b)).1
      (revert ctx db (mkRow (chainLast none bs) b)).2 := by
  obtain ⟨hdb, hprev, hh⟩ := hcs
  have hgbs : GoodIdx bs := goodIdx_append_left bs [b] hg
  have hbidx : b.index = (bs.length : Int) := by
    have h1 := hg bs.length
      (by simp only [List.length_append, List.length_cons, List.length_nil]; omega)
    rwa [List.getD_append_right _ _ _ _ (le_refl _), Nat.sub_self, List.getD_cons_zero] at h1
  have hrowid : (mkRow (chainLast none bs) b).id = (bs.length : Int) := by
    rw [mkRow_id, hbidx]
  have hsnoc : chainRows (bs ++ [b]) = chainRows bs ++ [mkRow (chainLast none bs) b] :=
    chainRowsAux_snoc bs none b
  have hfilter :
      db.blocks.filter (fun r => ¬ r.id = (mkRow (chainLast none bs) b).id) = chainRows bs := by
    rw [hdb, hsnoc, List.filter_append]
    have h1 : (chainRows bs).filter (fun r => ¬ r.id = (mkRow (chainLast none bs) b).id) =
        chainRows bs := by
      rw [List.filter_eq_self]
      intro r hr
      have hb := (chainRows_id_bound bs hgbs r hr).2
      simp only [decide_eq_true_eq, decide_not]
      simp only [Bool.not_eq_true', decide_eq_false_iff_not]
      rw [hrowid]
      omega
    have h2 : ([mkRow (chainLast none bs) b]).filter
        (fun r => ¬ r.id = (mkRow (chainLast none bs) b).id) = [] := by
      simp
    rw [h1, h2, List.append_nil]
  have hgp : latestAtMost (chainRows bs) ((mkRow (chainLast none bs) b).id - 1) =
      chainLast none bs := by
    by_cases hbs : bs = []
    · subst hbs
      rfl
    · exact gpbm_chainRows_top bs hgbs hbs _ (by rw [hrowid])
  refine ⟨?_, ?_, ?_⟩
  · show (db.blocks.filter _) = chainRows bs
    exact hfilter
  · show latestAtMost (db.blocks.filter _) _ = chainLast none bs
    rw [hfilter]
    exact hgp
  · show (match latestAtMost (db.blocks.filter _) _ with
      | none => (-1 : Int)
      | some p => p.id) = (bs.length : Int) - 1
    rw [hfilter, hgp]
    cases hbs : bs with
    | nil => rfl
    | cons x t =>
      rw [← hbs]
      have hne : bs ≠ [] := by rw [hbs]; simp
      rw [chainLast_eq_getD_none bs hne]
      dsimp only
      rw [chainRows_getD_id bs hgbs _ (by
        have := List.length_pos.2 hne
        omega)]
      have := List.length_pos.2 hne
      omega

/-! ## Supporting lemmas: processing whole chains -/

theorem chainRows_getD_hash (bs : List Block) (k : Nat) (hk : k < bs.length) :
    ((chainRows bs).getD k default).hash = (bs.getD k default).hash := by
  rw [chainRows, chainRowsAux_getD bs none k hk, mkRow_hash]

theorem saveMany_chain (client : Int → Option Block) (fuel : Nat) :
    ∀ (bs pre : List Block) (ctx : Context) (db : DB),
      GoodBlocks (pre ++ bs) → ChainState pre ctx db →
      ∃ ctx2 db2, saveMany client (fuel + 1) (ctx, db) bs = Except.ok (ctx2, db2) ∧
        ChainState (pre ++ bs) ctx2 db2 := by
  intro bs
  induction bs with
  | nil =>
    intro pre ctx db hgb hcs
    exact ⟨ctx, db, rfl, by rwa [List.append_nil]⟩
  | cons b t ih =>
    intro pre ctx db hgb hcs
    have hgpre : GoodIdx pre := goodIdx_append_left pre (b :: t) hgb.1
    have hidx : b.index = (pre.length : Int) := by
      have h1 := hgb.1 pre.length
        (by simp only [List.length_append, List.length_cons]; omega)
      rwa [List.getD_append_right _ _ _ _ (le_refl _), Nat.sub_self, List.getD_cons_zero] at h1
    have hlink : ∀ p, chainLast none pre = some p → b.previousBlockHash = p.hash := by
      intro p hp
      by_cases hne : pre = []
      · rw [hne] at hp
        exact Option.noConfusion hp
      · rw [chainLast_eq_getD_none pre hne] at hp
        injection hp with hp2
        have hlen : 0 < pre.length := List.length_pos.2 hne
        have hhash : p.hash = (pre.getD (pre.length - 1) default).hash := by
          rw [← hp2]
          exact chainRows_getD_hash pre _ (by omega)
        have hglink := hgb.2 (pre.length - 1)
          (by simp only [List.length_append, List.length_cons]; omega)
        have e1 : pre.length - 1 + 1 = pre.length := by omega
        rw [e1, List.getD_append_right _ _ _ _ (le_refl _), Nat.sub_self,
          List.getD_cons_zero, List.getD_append _ _ _ _ (by omega)] at hglink
        rw [hglink, hhash]
    obtain ⟨ctx2, db2, hsave, hcs2⟩ :=
      save_append_step client fuel ctx db pre b hgpre hcs hidx hlink
    have hassoc : (pre ++ [b]) ++ t = pre ++ b :: t := by
      rw [List.append_assoc]
      rfl
    obtain ⟨ctx3, db3, hrest, hcs3⟩ :=
      ih (pre ++ [b]) ctx2 db2 (by rwa [hassoc]) hcs2
    refine ⟨ctx3, db3, ?_, ?_⟩
    · show saveMany client (fuel + 1) (ctx, db) (b :: t) = Except.ok (ctx3, db3)
      simp only [saveMany]
      rw [hsave]
      exact hrest
    · rwa [hassoc] at hcs3

theorem feePrefix_cons (b : Block) (t : List Block) (n : Nat) :
    feePrefix (b :: t) (n + 1) = blockFee b + feePrefix t n := by
  simp [feePrefix, List.take_succ_cons]

theorem chainRowsAux_agg :
    ∀ (bs : List Block) (pbm : Option BlockModel) (base : ℚ),
      (∀ b ∈ bs, IsFixed8 (blockFee b)) →
      (match pbm with
        | none => base = 0
        | some p => p.aggregated_system_fee = base) →
      IsFixed8 base →
      ∀ k, k < bs.length →
        ((chainRowsAux pbm bs).getD k default).aggregated_system_fee =
          base + feePrefix bs (k + 1) := by
  intro bs
  induction bs with
  | nil =>
    intro pbm base hfee hb hf k hk
    exact absurd hk (by simp)
  | cons b t ih =>
    intro pbm base hfee hb hf k hk
    have hfb : IsFixed8 (blockFee b) := hfee b (List.mem_cons_self _ _)
    have hagg : (mkRow pbm b).aggregated_system_fee = base + blockFee b := by
      cases pbm with
      | none =>
        show round8 (blockFee b) = base + blockFee b
        rw [hfb, hb, zero_add]
      | some p =>
        show round8 (p.aggregated_system_fee + blockFee b) = base + blockFee b
        rw [hb, hf.add hfb]
    cases k with
    | zero =>
      show (mkRow pbm b).aggregated_system_fee = base + feePrefix (b :: t) 1
      rw [hagg, feePrefix_cons]
      have h0 : feePrefix t 0 = 0 := by simp [feePrefix]
      rw [h0, add_zero]
    | succ k =>
      show ((chainRowsAux (some (mkRow pbm b)) t).getD k default).aggregated_system_fee =
        base + feePrefix (b :: t) (k + 2)
      rw [ih (some (mkRow pbm b)) (base + blockFee b)
          (fun u hu => hfee u (List.mem_cons_of_mem _ hu)) hagg (hf.add hfb) k
          (by simpa using hk)]
      rw [feePrefix_cons]
      ring

/-! ## Claim theorems -/

/-- C9: for every block whose index is neither `height + 1` nor `height`
(out of order or far future), `save` performs no write and raises no error —
it returns the input context and storage unchanged, a silent no-op. -/
theorem save_out_of_order_noop (client : Int → Option Block) (fuel : Nat)
    (ctx : Context) (db : DB) (b : Block)
    (h1 : ¬ b.index = ctx.currentHeight + 1)
    (h2 : ¬ b.index = ctx.currentHeight) :
    save client (fuel + 1) ctx db b = Except.ok (ctx, db) := by
  simp only [save, getCurrentHeight]
  rw [if_neg h1, if_neg h2]

/-- Witness for C9: a far-future block (index 9 over height 5) is a no-op. -/
theorem save_out_of_order_noop_witness :
    save demoClient 1 ctxA dbA (demoBlock 9 "x" "y" 0) = Except.ok (ctxA, dbA) :=
  save_out_of_order_noop demoClient 0 ctxA dbA (demoBlock 9 "x" "y" 0)
    (by decide) (by decide)

/-- C8: `save` called with `block.index = height` and a hash equal to the
already-committed hash at that height returns the context and storage
unchanged — no row is modified, so a duplicate append cannot double-count the
aggregated fee. -/
theorem save_stale_duplicate_noop (client : Int → Option Block) (fuel : Nat)
    (ctx : Context) (db : DB) (b : Block) (bm : BlockModel)
    (hidx : b.index = ctx.currentHeight)
    (hbm : DB.lookup db b.index = some bm)
    (hhash : b.hash = bm.hash) :
    save client (fuel + 1) ctx db b = Except.ok (ctx, db) := by
  have h1 : ¬ b.index = ctx.currentHeight + 1 := by omega
  simp only [save, getCurrentHeight]
  rw [if_neg h1, if_pos hidx, hbm]
  dsimp only
  rw [if_neg (not_not_intro hhash)]

/-- Witness for C8: re-feeding the already-committed block A5 leaves the
state untouched. -/
theorem save_stale_duplicate_noop_witness :
    save demoClient 1 ctxA dbA (chainA.getD 5 default) = Except.ok (ctxA, dbA) :=
  save_stale_duplicate_noop demoClient 0 ctxA dbA (chainA.getD 5 default)
    ((chainRows chainA).getD 5 default) (by decide)
    (by with_unfolding_all decide) (by with_unfolding_all decide)

/-- C7: the uniqueness-violation handler on the block insert re-reads the
existing row and treats it as the committed value, never surfacing the
violation; every other storage error is propagated unchanged; and a `save`
whose insert hits the unique constraint — a concurrent or retried writer
already committed a row at the block's index, while the block is consistent
with the committed block at the previous height — succeeds with the existing
row as the committed value, writing no block row. -/
theorem unique_violation_insert_or_fetch :
    (∀ (db : DB) (i : Int) (e : Err), isUniqueError e = false →
        catchUnique db i e = Except.error e) ∧
    (∀ (db : DB) (i : Int) (e : Err) (r : BlockModel), isUniqueError e = true →
        DB.lookup db i = some r → catchUnique db i e = Except.ok r) ∧
    (∀ (client : Int → Option Block) (fuel : Nat) (ctx : Context) (db : DB)
        (b : Block) (old : BlockModel),
      b.index = ctx.currentHeight + 1 →
      (∀ p, getPreviousBlockModel db b.index = some p → b.previousBlockHash = p.hash) →
      DB.lookup db b.index = some old →
      ∃ ctx2 db2, save client (fuel + 1) ctx db b = Except.ok (ctx2, db2) ∧
        ctx2.prevBlock = some old ∧ db2.blocks = db.blocks) := by
  refine ⟨?_, ?_, ?_⟩
  · intro db i e he
    unfold catchUnique
    rw [if_neg (by rw [he]; exact Bool.false_ne_true)]
  · intro db i e r he hr
    unfold catchUnique
    rw [if_pos he, hr]
  · intro client fuel ctx db b old hidx hcons hold
    have hoid : old.id = b.index := by
      have h1 := List.find?_some hold
      simpa using h1
    have hany : ∀ pbm : Option BlockModel,
        (db.blocks.any (fun r => r.id = (mkRow pbm b).id)) = true := by
      intro pbm
      rw [List.any_eq_true]
      exact ⟨old, List.mem_of_find?_eq_some hold, by simp [mkRow_id, hoid]⟩
    have hsave : save client (fuel + 1) ctx db b = Except.ok
        ({ ctx with prevBlock := some old, currentHeight := old.id },
          { db with
            systemFees := db.systemFees ++
              [(b.index, round8 (aggFee (getPreviousBlockModel db b.index) b))]
            processedIndex := b.index }) := by
      simp only [save, getCurrentHeight]
      rw [if_pos hidx]
      cases hgp : getPreviousBlockModel db b.index with
      | none =>
        dsimp only
        rw [if_pos rfl]
        unfold insertAndReturn
        rw [if_pos (hany none)]
        dsimp only
        unfold catchUnique
        rw [if_pos (show isUniqueError Err.unique = true from rfl), hold]
        rfl
      | some p =>
        dsimp only
        rw [if_pos (by simp [hcons p hgp])]
        unfold insertAndReturn
        rw [if_pos (hany (some p))]
        dsimp only
        unfold catchUnique
        rw [if_pos (show isUniqueError Err.unique = true from rfl), hold]
        rfl
    exact ⟨_, _, hsave, rfl, rfl⟩

/-- Witness for C7: a non-unique storage error passes through the handler; a
unique violation is resolved by the re-read; re-feeding the chain's own block
A5 with a stale context at height 4 — its row already committed at index 5 by
a concurrent writer — passes the consistency check against the committed row
at height 4, hits the unique constraint on the insert, and succeeds by
adopting the existing row at 5 without writing anything. -/
theorem unique_violation_insert_or_fetch_witness :
    catchUnique dbA 0 (Err.otherStorage "disk") = Except.error (Err.otherStorage "disk") ∧
    catchUnique dbA 5 Err.unique = Except.ok ((chainRows chainA).getD 5 default) ∧
    (∃ ctx2 db2,
      save demoClient 1
        { currentHeight := 4, prevBlock := none, blacklistNEP5Hashes := [] } dbA
        (chainA.getD 5 default) = Except.ok (ctx2, db2) ∧
      ctx2.prevBlock = some ((chainRows chainA).getD 5 default) ∧
      db2.blocks = dbA.blocks) :=
  ⟨unique_violation_insert_or_fetch.1 dbA 0 (Err.otherStorage "disk") (by decide),
    unique_violation_insert_or_fetch.2.1 dbA 5 Err.unique
      ((chainRows chainA).getD 5 default) (by decide) (by with_unfolding_all decide),
    unique_violation_insert_or_fetch.2.2 demoClient 0
      { currentHeight := 4, prevBlock := none, blacklistNEP5Hashes := [] } dbA
      (chainA.getD 5 default) ((chainRows chainA).getD 5 default)
      (by decide)
      (by
        intro p hp
        have hval : getPreviousBlockModel dbA ((chainA.getD 5 default).index) =
            some ((chainRows chainA).getD 4 default) := by with_unfolding_all decide
        rw [hval] at hp
        injection hp with hp2
        rw [← hp2]
        with_unfolding_all decide)
      (by with_unfolding_all decide)⟩

/-- C2: reverting the committed block at height `h` of a well-formed committed
chain yields a context whose height is `h - 1` and whose previous-block
pointer is the committed row at `h - 1`; when no block remains below (the
chain had height 0), the height becomes `-1` and the pointer is absent. -/
theorem revert_height_and_pointer (ctx : Context) (db : DB) (bm : BlockModel) (h : Int)
    (hbm : bm.id = h)
    (hlow : ∀ r ∈ db.blocks, 0 ≤ r.id ∧ r.id ≤ h)
    (hinj : ∀ r ∈ db.blocks, ∀ r2 ∈ db.blocks, r.id = r2.id → r = r2)
    (hfull : ∀ i : Int, 0 ≤ i → i ≤ h → ∃ r ∈ db.blocks, r.id = i) :
    (1 ≤ h →
      ∃ p, DB.lookup db (h - 1) = some p ∧
        (revert ctx db bm).1.prevBlock = some p ∧
        (revert ctx db bm).1.currentHeight = h - 1) ∧
    (h = 0 →
      (revert ctx db bm).1.prevBlock = none ∧
      (revert ctx db bm).1.currentHeight = -1) := by
  constructor
  · intro hh
    obtain ⟨p, hpmem, hpid⟩ := hfull (h - 1) (by omega) (by omega)
    have hpmem2 : p ∈ db.blocks.filter (fun r => ¬ r.id = bm.id) := by
      rw [List.mem_filter]
      refine ⟨hpmem, ?_⟩
      simp only [decide_not, Bool.not_eq_true', decide_eq_false_iff_not]
      rw [hpid, hbm]
      omega
    have hlam : latestAtMost (db.blocks.filter (fun r => ¬ r.id = bm.id)) (bm.id - 1) =
        some p := by
      refine latestAtMost_eq_some _ _ _ hpmem2 (by rw [hpid, hbm]) ?_ ?_
      · intro r hr hrle
        rw [hpid]
        rw [hbm] at hrle
        omega
      · intro r hr hrid
        have hr2 : r ∈ db.blocks := (List.mem_filter.1 hr).1
        exact hinj r hr2 p hpmem (by rw [hrid, hpid])
    have hlook : DB.lookup db (h - 1) = some p := by
      refine find?_unique _ _ _ hpmem hpid ?_
      intro r hr hrid
      exact hinj r hr p hpmem (by rw [hrid, hpid])
    refine ⟨p, hlook, ?_, ?_⟩
    · show latestAtMost (db.blocks.filter (fun r => ¬ r.id = bm.id)) (bm.id - 1) = some p
      exact hlam
    · show (match latestAtMost (db.blocks.filter (fun r => ¬ r.id = bm.id)) (bm.id - 1) with
        | none => (-1 : Int)
        | some p => p.id) = h - 1
      rw [hlam]
      exact hpid
  · intro hh
    have hlam : latestAtMost (db.blocks.filter (fun r => ¬ r.id = bm.id)) (bm.id - 1) =
        none := by
      refine latestAtMost_eq_none _ _ ?_
      intro r hr
      have hr2 : r ∈ db.blocks := (List.mem_filter.1 hr).1
      have hb := (hlow r hr2).1
      rw [hbm, hh]
      omega
    constructor
    · show latestAtMost (db.blocks.filter (fun r => ¬ r.id = bm.id)) (bm.id - 1) = none
      exact hlam
    · show (match latestAtMost (db.blocks.filter (fun r => ¬ r.id = bm.id)) (bm.id - 1) with
        | none => (-1 : Int)
        | some p => p.id) = -1
      rw [hlam]

/-- Witness for C2: reverting the top block A5 of the committed 0..5 chain
yields height 4 and a pointer to the committed row at 4. -/
theorem revert_height_and_pointer_witness :
    (1 ≤ (5 : Int) →
      ∃ p, DB.lookup dbA (5 - 1) = some p ∧
        (revert ctxA dbA ((chainRows chainA).getD 5 default)).1.prevBlock = some p ∧
        (revert ctxA dbA ((chainRows chainA).getD 5 default)).1.currentHeight = 5 - 1) ∧
    ((5 : Int) = 0 →
      (revert ctxA dbA ((chainRows chainA).getD 5 default)).1.prevBlock = none ∧
      (revert ctxA dbA ((chainRows chainA).getD 5 default)).1.currentHeight = -1) :=
  revert_height_and_pointer ctxA dbA ((chainRows chainA).getD 5 default) 5
    (by with_unfolding_all decide)
    (by with_unfolding_all decide)
    (by with_unfolding_all decide)
    (by
      intro i h1 h2
      interval_cases i <;> with_unfolding_all decide)

/-- The state committed by a clean append: under the append conditions
(`block.index = height + 1`, previous hash consistent, no row at the new
index) `save` inserts exactly the `mkRow` row, appends the fee-ledger entry,
and advances the cursor and context. -/
theorem save_append_result (client : Int → Option Block) (fuel : Nat) (ctx : Context)
    (db : DB) (b : Block)
    (hidx : b.index = ctx.currentHeight + 1)
    (hcons : ∀ p, getPreviousBlockModel db b.index = some p → b.previousBlockHash = p.hash)
    (hnew : ∀ r ∈ db.blocks, ¬ r.id = b.index) :
    save client (fuel + 1) ctx db b = Except.ok
      ({ ctx with
          prevBlock := some (mkRow (getPreviousBlockModel db b.index) b)
          currentHeight := (mkRow (getPreviousBlockModel db b.index) b).id },
        { db with
          blocks := db.blocks ++ [mkRow (getPreviousBlockModel db b.index) b]
          systemFees := db.systemFees ++
            [(b.index, round8 (aggFee (getPreviousBlockModel db b.index) b))]
          processedIndex := b.index }) := by
  have hany : ∀ pbm : Option BlockModel,
      ¬ ((db.blocks.any (fun r => r.id = (mkRow pbm b).id)) = true) := by
    intro pbm
    rw [List.any_eq_true]
    rintro ⟨r, hr, hrid⟩
    simp only [mkRow_id, decide_eq_true_eq] at hrid
    exact hnew r hr hrid
  simp only [save, getCurrentHeight]
  rw [if_pos hidx]
  cases hgp : getPreviousBlockModel db b.index with
  | none =>
    dsimp only
    rw [if_pos rfl]
    unfold insertAndReturn
    rw [if_neg (hany none)]
    rfl
  | some p =>
    dsimp only
    rw [if_pos (by simp [hcons p hgp])]
    unfold insertAndReturn
    rw [if_neg (hany (some p))]
    rfl

/-- C3: `Revert` inverts `Save.Append` on the state this core owns: appending
block `b` to a consistent context/storage pair and then reverting the
committed row restores the original context and storage exactly, and
re-`Save` of the same block from the restored state reproduces the identical
committed state (same rows, same aggregated fee, same height). -/
theorem revert_inverts_save (client : Int → Option Block) (fuel : Nat)
    (ctx : Context) (db : DB) (b : Block)
    (hidx : b.index = ctx.currentHeight + 1)
    (hprev : ctx.prevBlock = latestAtMost db.blocks ctx.currentHeight)
    (hph : match ctx.prevBlock with
      | none => ctx.currentHeight = -1
      | some p => p.id = ctx.currentHeight)
    (hnew : ∀ r ∈ db.blocks, ¬ r.id = b.index)
    (hledger : ∀ e ∈ db.systemFees, ¬ e.1 = b.index)
    (hcursor : db.processedIndex = ctx.currentHeight)
    (hcons : ∀ p, getPreviousBlockModel db b.index = some p → b.previousBlockHash = p.hash) :
    ∃ ctx2 db2, save client (fuel + 1) ctx db b = Except.ok (ctx2, db2) ∧
      ∀ bm, ctx2.prevBlock = some bm →
        revert ctx2 db2 bm = (ctx, db) ∧
        save client (fuel + 1) (revert ctx2 db2 bm).1 (revert ctx2 db2 bm).2 b =
          Except.ok (ctx2, db2) := by
  have hsave := save_append_result client fuel ctx db b hidx hcons hnew
  refine ⟨_, _, hsave, ?_⟩
  intro bm hbm
  have hbm2 : mkRow (getPreviousBlockModel db b.index) b = bm := by
    injection hbm
  subst hbm2
  have hrowid : (mkRow (getPreviousBlockModel db b.index) b).id = b.index := mkRow_id _ _
  have hrev : revert
      { ctx with
        prevBlock := some (mkRow (getPreviousBlockModel db b.index) b)
        currentHeight := (mkRow (getPreviousBlockModel db b.index) b).id }
      { db with
        blocks := db.blocks ++ [mkRow (getPreviousBlockModel db b.index) b]
        systemFees := db.systemFees ++
          [(b.index, round8 (aggFee (getPreviousBlockModel db b.index) b))]
        processedIndex := b.index }
      (mkRow (getPreviousBlockModel db b.index) b) = (ctx, db) := by
    have hfee2 : (db.systemFees ++
        [(b.index, round8 (aggFee (getPreviousBlockModel db b.index) b))]).filter
          (fun e => ¬ e.1 = (mkRow (getPreviousBlockModel db b.index) b).id) =
        db.systemFees := by
      rw [hrowid, List.filter_append]
      have h1 : db.systemFees.filter (fun e => ¬ e.1 = b.index) = db.systemFees := by
        rw [List.filter_eq_self]
        intro e he
        simpa using hledger e he
      have h2 : ([(b.index, round8 (aggFee (getPreviousBlockModel db b.index) b))]).filter
          (fun e => ¬ e.1 = b.index) = [] := by
        simp
      rw [h1, h2, List.append_nil]
    have hblk2 : (db.blocks ++ [mkRow (getPreviousBlockModel db b.index) b]).filter
        (fun r => ¬ r.id = (mkRow (getPreviousBlockModel db b.index) b).id) =
        db.blocks := by
      rw [hrowid, List.filter_append]
      have h1 : db.blocks.filter (fun r => ¬ r.id = b.index) = db.blocks := by
        rw [List.filter_eq_self]
        intro r hr
        simpa using hnew r hr
      have h2 : ([mkRow (getPreviousBlockModel db b.index) b]).filter
          (fun r => ¬ r.id = b.index) = [] := by
        simp [mkRow_id]
      rw [h1, h2, List.append_nil]
    have hgp2 : latestAtMost db.blocks
        ((mkRow (getPreviousBlockModel db b.index) b).id - 1) = ctx.prevBlock := by
      rw [hrowid, show b.index - 1 = ctx.currentHeight from by omega, hprev]
    dsimp only [revert, systemFeeRevert, DB.deleteBlock, processedIndexRevert]
    rw [hblk2, hfee2]
    rw [hgp2, hrowid,
      show b.index - 1 = ctx.currentHeight from by omega, ← hcursor]
    cases hpb : ctx.prevBlock with
    | none =>
      have hh : ctx.currentHeight = -1 := by
        have h2 := hph
        rw [hpb] at h2
        exact h2
      dsimp only
      rw [← hh, ← hpb]
    | some p =>
      have hh : p.id = ctx.currentHeight := by
        have h2 := hph
        rw [hpb] at h2
        exact h2
      dsimp only
      rw [hh, ← hpb]
  exact ⟨hrev, by rw [hrev]; exact hsave⟩

/-- Witness for C3: appending the genesis block over the empty projection and
reverting it restores the empty state, and re-saving reproduces the same
committed state. -/
theorem revert_inverts_save_witness :
    ∃ ctx2 db2,
      save demoClient 1 startContext emptyDB (demoBlock 0 "h0" "" 1) =
        Except.ok (ctx2, db2) ∧
      ∀ bm, ctx2.prevBlock = some bm →
        revert ctx2 db2 bm = (startContext, emptyDB) ∧
        save demoClient 1 (revert ctx2 db2 bm).1 (revert ctx2 db2 bm).2
            (demoBlock 0 "h0" "" 1) = Except.ok (ctx2, db2) :=
  revert_inverts_save demoClient 0 startContext emptyDB (demoBlock 0 "h0" "" 1)
    (by decide) rfl rfl (by simp [emptyDB]) (by simp [emptyDB]) rfl
    (fun p hp => Option.noConfusion hp)

theorem feePrefix_succ (bs : List Block) (k : Nat) (hk : k < bs.length) :
    feePrefix bs (k + 1) = feePrefix bs k + blockFee (bs.getD k default) := by
  unfold feePrefix
  rw [List.take_succ, List.map_append, List.sum_append]
  congr 1
  rw [List.getElem?_eq_getElem hk, List.getD_eq_getElem _ _ hk]
  simp

/-- C4 (amended): processing a contiguous, hash-linked chain of blocks from
the empty projection succeeds, and — provided every transaction's system fee
is representable in the eight-decimal `toFixed(8)` storage format — the
stored `aggregated_system_fee` at index `n` is the exact sum of the per-block
fees for indices `0..n`, and in particular equals
`aggregated_system_fee(n-1) + system_fee(n)`.  (Without the eight-decimal
hypothesis the stored value is the half-up rounding to eight decimals; see
the counterexample.) -/
theorem aggregated_fee_invariant (client : Int → Option Block) (fuel : Nat)
    (bs : List Block)
    (hg : GoodBlocks bs)
    (hfee : ∀ b ∈ bs, ∀ t ∈ b.transactions, IsFixed8 t.systemFee) :
    ∃ ctx2 db2,
      saveMany client (fuel + 1) (startContext, emptyDB) bs = Except.ok (ctx2, db2) ∧
      (∀ k : Nat, k < bs.length →
        ∃ r, DB.lookup db2 (k : Int) = some r ∧
          r.aggregated_system_fee = feePrefix bs (k + 1)) ∧
      (∀ (k : Nat) (r r2 : BlockModel), k + 1 < bs.length →
        DB.lookup db2 (k : Int) = some r →
        DB.lookup db2 ((k : Int) + 1) = some r2 →
        r2.aggregated_system_fee =
          r.aggregated_system_fee + blockFee (bs.getD (k + 1) default)) := by
  have hcs0 : ChainState [] startContext emptyDB := ⟨rfl, rfl, by decide⟩
  obtain ⟨ctx2, db2, hrun, hcs⟩ :=
    saveMany_chain client fuel bs [] startContext emptyDB hg hcs0
  have hb2 : db2.blocks = chainRows bs := hcs.1
  have hfee2 : ∀ b ∈ bs, IsFixed8 (blockFee b) :=
    fun b hb => blockFee_isFixed8 b (hfee b hb)
  have hlkup : ∀ k : Nat, k < bs.length →
      DB.lookup db2 (k : Int) = some ((chainRows bs).getD k default) := by
    intro k hk
    show db2.blocks.find? (fun r => r.id = (k : Int)) = _
    rw [hb2]
    exact lookup_chainRows bs hg.1 k hk
  have hagg : ∀ k : Nat, k < bs.length →
      ((chainRows bs).getD k default).aggregated_system_fee = feePrefix bs (k + 1) := by
    intro k hk
    have h1 := chainRowsAux_agg bs none 0 hfee2 rfl isFixed8_zero k hk
    rw [zero_add] at h1
    exact h1
  refine ⟨ctx2, db2, hrun, ?_, ?_⟩
  · intro k hk
    exact ⟨_, hlkup k hk, hagg k hk⟩
  · intro k r r2 hk hr hr2
    have h1 := hlkup k (by omega)
    have h2 := hlkup (k + 1) hk
    have hrk : r = (chainRows bs).getD k default :=
      Option.some.inj (hr.symm.trans h1)
    have hcast : ((k : Int) + 1) = ((k + 1 : Nat) : Int) := by push_cast; ring
    have hr2k : r2 = (chainRows bs).getD (k + 1) default := by
      rw [hcast] at hr2
      exact Option.some.inj (hr2.symm.trans h2)
    rw [hrk, hr2k, hagg k (by omega), hagg (k + 1) hk]
    exact feePrefix_succ bs (k + 1) hk

/-- Witness for C4: a two-block chain with unit fees stores aggregated fees
1 and 2. -/
theorem aggregated_fee_invariant_witness :
    ∃ ctx2 db2,
      saveMany demoClient 1 (startContext, emptyDB)
          [demoBlock 0 "h0" "" 1, demoBlock 1 "h1" "h0" 1] = Except.ok (ctx2, db2) ∧
      (∀ k : Nat, k < ([demoBlock 0 "h0" "" 1, demoBlock 1 "h1" "h0" 1]).length →
        ∃ r, DB.lookup db2 (k : Int) = some r ∧
          r.aggregated_system_fee =
            feePrefix [demoBlock 0 "h0" "" 1, demoBlock 1 "h1" "h0" 1] (k + 1)) ∧
      (∀ (k : Nat) (r r2 : BlockModel),
        k + 1 < ([demoBlock 0 "h0" "" 1, demoBlock 1 "h1" "h0" 1]).length →
        DB.lookup db2 (k : Int) = some r →
        DB.lookup db2 ((k : Int) + 1) = some r2 →
        r2.aggregated_system_fee =
          r.aggregated_system_fee +
            blockFee (([demoBlock 0 "h0" "" 1, demoBlock 1 "h1" "h0" 1]).getD (k + 1)
              default)) :=
  aggregated_fee_invariant demoClient 0 [demoBlock 0 "h0" "" 1, demoBlock 1 "h1" "h0" 1]
    (by with_unfolding_all decide)
    (by with_unfolding_all decide)

/-- Counterexample for C4 as frozen: a single block whose transaction fee is
10⁻⁹ (finer than the eight-decimal storage format) stores
`aggregated_system_fee` 0, not `aggregated_system_fee(-1) + system_fee(0)`,
whose exact value `blockFee` is nonzero. -/
theorem aggregated_fee_cex :
    (saveMany (fun _ => none) 1 (startContext, emptyDB)
          [demoBlock 0 "c0" "" (1 / 1000000000)]).toOption.map
        (fun st => (DB.lookup st.2 0).map (fun r => r.aggregated_system_fee)) =
      some (some 0) ∧
    ¬ blockFee (demoBlock 0 "c0" "" (1 / 1000000000)) = 0 := by
  constructor
  · with_unfolding_all decide
  · with_unfolding_all decide

theorem chainRows_getD_last (bs : List Block) (b : Block) :
    (chainRows (bs ++ [b])).getD bs.length default = mkRow (chainLast none bs) b := by
  rw [chainRows, chainRowsAux_snoc]
  rw [List.getD_append_right _ _ _ _ (by rw [chainRowsAux_length])]
  rw [chainRowsAux_length, Nat.sub_self, List.getD_cons_zero]

/-- Counterexample for C1 as frozen: with chains A0..A5 committed and the
canonical chain B diverging at 3, `save` of B5 ends at height 3 with no rows
at 4 and 5 — not at height 5 with B0..B5 committed. -/
theorem fork_resolution_cex :
    (save demoClient 10 ctxA dbA blockB5).toOption.map
        (fun st => (st.1.currentHeight, DB.lookup st.2 4, DB.lookup st.2 5)) =
      some (3, none, none) ∧
    ¬ (3 : Int) = 5 := by
  constructor
  · with_unfolding_all decide
  · decide

/-- C1 (amended): for a locally committed chain A0..A5 and a canonical chain
B0..B5 sharing A0..A2 and diverging from index 3 on, `save` of B5 reverts A5,
A4 and A3 and recommits only the canonical block at the divergence point:
the call ends with height 3 and the committed chain B0..B3 (the canonical
blocks above the divergence point are recommitted by the driving loop's
subsequent `save` calls, not by this one — feeding B4 or B3 directly at
height 5 is a no-op). -/
theorem fork_resolution_divergence_point (client : Int → Option Block) (fuel : Nat)
    (x0 x1 x2 a3 a4 a5 b3 b4 b5 : Block) (ctx : Context) (db : DB)
    (hgA : GoodBlocks [x0, x1, x2, a3, a4, a5])
    (hgB : GoodBlocks [x0, x1, x2, b3, b4, b5])
    (h5 : ¬ b5.hash = a5.hash)
    (h4 : ¬ b4.hash = a4.hash)
    (h3 : ¬ b3.hash = a3.hash)
    (hc4 : client 4 = some b4)
    (hc3 : client 3 = some b3)
    (hcs : ChainState [x0, x1, x2, a3, a4, a5] ctx db) :
    ∃ ctx2 db2, save client (fuel + 4) ctx db b5 = Except.ok (ctx2, db2) ∧
      ctx2.currentHeight = 3 ∧ ChainState [x0, x1, x2, b3] ctx2 db2 := by
  have hb5i : b5.index = 5 := by
    have h1 := hgB.1 5 (by simp)
    simp only [List.getD_cons_succ, List.getD_cons_zero] at h1
    exact_mod_cast h1
  have hb4i : b4.index = 4 := by
    have h1 := hgB.1 4 (by simp)
    simp only [List.getD_cons_succ, List.getD_cons_zero] at h1
    exact_mod_cast h1
  have hb3i : b3.index = 3 := by
    have h1 := hgB.1 3 (by simp)
    simp only [List.getD_cons_succ, List.getD_cons_zero] at h1
    exact_mod_cast h1
  have hb5p : b5.previousBlockHash = b4.hash := by
    have h1 := hgB.2 4 (by simp)
    simpa only [List.getD_cons_succ, List.getD_cons_zero] using h1
  have hb4p : b4.previousBlockHash = b3.hash := by
    have h1 := hgB.2 3 (by simp)
    simpa only [List.getD_cons_succ, List.getD_cons_zero] using h1
  have hb3p : b3.previousBlockHash = x2.hash := by
    have h1 := hgB.2 2 (by simp)
    simpa only [List.getD_cons_succ, List.getD_cons_zero] using h1
  have hgA5 : GoodIdx [x0, x1, x2, a3, a4] :=
    goodIdx_append_left [x0, x1, x2, a3, a4] [a5] hgA.1
  have hgA4 : GoodIdx [x0, x1, x2, a3] :=
    goodIdx_append_left [x0, x1, x2, a3] [a4, a5] hgA.1
  have hgA3 : GoodIdx [x0, x1, x2] :=
    goodIdx_append_left [x0, x1, x2] [a3, a4, a5] hgA.1
  obtain ⟨hdb, hpv, hh⟩ := hcs
  have hh5 : ctx.currentHeight = 5 := by
    simp only [List.length_cons, List.length_nil] at hh
    omega
  have hlk5 : DB.lookup db b5.index =
      some (mkRow (chainLast none [x0, x1, x2, a3, a4]) a5) := by
    show db.blocks.find? (fun r => r.id = b5.index) = _
    rw [hdb, hb5i]
    have h1 := lookup_chainRows [x0, x1, x2, a3, a4, a5] hgA.1 5 (by simp)
    rw [show ((5 : Nat) : Int) = (5 : Int) from by norm_num] at h1
    rw [h1]
    exact congrArg some (chainRows_getD_last [x0, x1, x2, a3, a4] a5)
  have hstep1 : save client (fuel + 4) ctx db b5 =
      save client (fuel + 3)
        (revert ctx db (mkRow (chainLast none [x0, x1, x2, a3, a4]) a5)).1
        (revert ctx db (mkRow (chainLast none [x0, x1, x2, a3, a4]) a5)).2 b5 := by
    refine save_stale_unfold client (fuel + 3) ctx db b5 _ ?_ ?_ hlk5 ?_
    · rw [hb5i, hh5]
      omega
    · rw [hb5i, hh5]
    · rw [mkRow_hash]
      exact h5
  have hcs1 : ChainState [x0, x1, x2, a3, a4]
      (revert ctx db (mkRow (chainLast none [x0, x1, x2, a3, a4]) a5)).1
      (revert ctx db (mkRow (chainLast none [x0, x1, x2, a3, a4]) a5)).2 :=
    revert_chain_step ctx db [x0, x1, x2, a3, a4] a5 hgA.1 ⟨hdb, hpv, hh⟩
  obtain ⟨hdb1, hpv1, hh1⟩ := hcs1
  have hh4 :
      (revert ctx db (mkRow (chainLast none [x0, x1, x2, a3, a4]) a5)).1.currentHeight =
        4 := by
    simp only [List.length_cons, List.length_nil] at hh1
    omega
  have hcl5 : chainLast none [x0, x1, x2, a3, a4] =
      some (mkRow (chainLast none [x0, x1, x2, a3]) a4) :=
    chainLast_snoc [x0, x1, x2, a3] none a4
  have hgp1 : getPreviousBlockModel
      (revert ctx db (mkRow (chainLast none [x0, x1, x2, a3, a4]) a5)).2 b5.index =
      some (mkRow (chainLast none [x0, x1, x2, a3]) a4) := by
    unfold getPreviousBlockModel
    rw [hdb1, hb5i]
    rw [gpbm_chainRows_top [x0, x1, x2, a3, a4] hgA5 (by simp) (5 - 1)
      (by simp only [List.length_cons, List.length_nil]; omega)]
    exact hcl5
  have hstep2 : save client (fuel + 3)
      (revert ctx db (mkRow (chainLast none [x0, x1, x2, a3, a4]) a5)).1
      (revert ctx db (mkRow (chainLast none [x0, x1, x2, a3, a4]) a5)).2 b5 =
      save client (fuel + 2)
        (revert (revert ctx db (mkRow (chainLast none [x0, x1, x2, a3, a4]) a5)).1
          (revert ctx db (mkRow (chainLast none [x0, x1, x2, a3, a4]) a5)).2
          (mkRow (chainLast none [x0, x1, x2, a3]) a4)).1
        (revert (revert ctx db (mkRow (chainLast none [x0, x1, x2, a3, a4]) a5)).1
          (revert ctx db (mkRow (chainLast none [x0, x1, x2, a3, a4]) a5)).2
          (mkRow (chainLast none [x0, x1, x2, a3]) a4)).2 b4 := by
    refine save_fork_unfold client (fuel + 2) _ _ b5 _ b4 ?_ hgp1 ?_ ?_
    · rw [hb5i, hh4]
      decide
    · rw [hb5p, mkRow_hash]
      exact h4
    · rw [hh4]
      exact hc4
  have hcs2 : ChainState [x0, x1, x2, a3]
      (revert (revert ctx db (mkRow (chainLast none [x0, x1, x2, a3, a4]) a5)).1
        (revert ctx db (mkRow (chainLast none [x0, x1, x2, a3, a4]) a5)).2
        (mkRow (chainLast none [x0, x1, x2, a3]) a4)).1
      (revert (revert ctx db (mkRow (chainLast none [x0, x1, x2, a3, a4]) a5)).1
        (revert ctx db (mkRow (chainLast none [x0, x1, x2, a3, a4]) a5)).2
        (mkRow (chainLast none [x0, x1, x2, a3]) a4)).2 :=
    revert_chain_step _ _ [x0, x1, x2, a3] a4 hgA5 ⟨hdb1, hpv1, hh1⟩
  obtain ⟨hdb2, hpv2, hh2⟩ := hcs2
  have hh3 :
      (revert (revert ctx db (mkRow (chainLast none [x0, x1, x2, a3, a4]) a5)).1
        (revert ctx db (mkRow (chainLast none [x0, x1, x2, a3, a4]) a5)).2
        (mkRow (chainLast none [x0, x1, x2, a3]) a4)).1.currentHeight = 3 := by
    simp only [List.length_cons, List.length_nil] at hh2
    omega
  have hcl4 : chainLast none [x0, x1, x2, a3] =
      some (mkRow (chainLast none [x0, x1, x2]) a3) :=
    chainLast_snoc [x0, x1, x2] none a3
  have hgp2 : getPreviousBlockModel
      (revert (revert ctx db (mkRow (chainLast none [x0, x1, x2, a3, a4]) a5)).1
        (revert ctx db (mkRow (chainLast none [x0, x1, x2, a3, a4]) a5)).2
        (mkRow (chainLast none [x0, x1, x2, a3]) a4)).2 b4.index =
      some (mkRow (chainLast none [x0, x1, x2]) a3) := by
    unfold getPreviousBlockModel
    rw [hdb2, hb4i]
    rw [gpbm_chainRows_top [x0, x1, x2, a3] hgA4 (by simp) (4 - 1)
      (by simp only [List.length_cons, List.length_nil]; omega)]
    exact hcl4
  have hstep3 : save client (fuel + 2)
      (revert (revert ctx db (mkRow (chainLast none [x0, x1, x2, a3, a4]) a5)).1
        (revert ctx db (mkRow (chainLast none [x0, x1, x2, a3, a4]) a5)).2
        (mkRow (chainLast none [x0, x1, x2, a3]) a4)).1
      (revert (revert ctx db (mkRow (chainLast none [x0, x1, x2, a3, a4]) a5)).1
        (revert ctx db (mkRow (chainLast none [x0, x1, x2, a3, a4]) a5)).2
        (mkRow (chainLast none [x0, x1, x2, a3]) a4)).2 b4 =
      save client (fuel + 1)
        (revert
          (revert (revert ctx db (mkRow (chainLast none [x0, x1, x2, a3, a4]) a5)).1
            (revert ctx db (mkRow (chainLast none [x0, x1, x2, a3, a4]) a5)).2
            (mkRow (chainLast none [x0, x1, x2, a3]) a4)).1
          (revert (revert ctx db (mkRow (chainLast none [x0, x1, x2, a3, a4]) a5)).1
            (revert ctx db (mkRow (chainLast none [x0, x1, x2, a3, a4]) a5)).2
            (mkRow (chainLast none [x0, x1, x2, a3]) a4)).2
          (mkRow (chainLast none [x0, x1, x2]) a3)).1
        (revert
          (revert (revert ctx db (mkRow (chainLast none [x0, x1, x2, a3, a4]) a5)).1
            (revert ctx db (mkRow (chainLast none [x0, x1, x2, a3, a4]) a5)).2
            (mkRow (chainLast none [x0, x1, x2, a3]) a4)).1
          (revert (revert ctx db (mkRow (chainLast none [x0, x1, x2, a3, a4]) a5)).1
            (revert ctx db (mkRow (chainLast none [x0, x1, x2, a3, a4]) a5)).2
            (mkRow (chainLast none [x0, x1, x2, a3]) a4)).2
          (mkRow (chainLast none [x0, x1, x2]) a3)).2 b3 := by
    refine save_fork_unfold client (fuel + 1) _ _ b4 _ b3 ?_ hgp2 ?_ ?_
    · rw [hb4i, hh3]
      decide
    · rw [hb4p, mkRow_hash]
      exact h3
    · rw [hh3]
      exact hc3
  have hcs3 : ChainState [x0, x1, x2]
      (revert
        (revert (revert ctx db (mkRow (chainLast none [x0, x1, x2, a3, a4]) a5)).1
          (revert ctx db (mkRow (chainLast none [x0, x1, x2, a3, a4]) a5)).2
          (mkRow (chainLast none [x0, x1, x2, a3]) a4)).1
        (revert (revert ctx db (mkRow (chainLast none [x0, x1, x2, a3, a4]) a5)).1
          (revert ctx db (mkRow (chainLast none [x0, x1, x2, a3, a4]) a5)).2
          (mkRow (chainLast none [x0, x1, x2, a3]) a4)).2
        (mkRow (chainLast none [x0, x1, x2]) a3)).1
      (revert
        (revert (revert ctx db (mkRow (chainLast none [x0, x1, x2, a3, a4]) a5)).1
          (revert ctx db (mkRow (chainLast none [x0, x1, x2, a3, a4]) a5)).2
          (mkRow (chainLast none [x0, x1, x2, a3]) a4)).1
        (revert (revert ctx db (mkRow (chainLast none [x0, x1, x2, a3, a4]) a5)).1
          (revert ctx db (mkRow (chainLast none [x0, x1, x2, a3, a4]) a5)).2
          (mkRow (chainLast none [x0, x1, x2, a3]) a4)).2
        (mkRow (chainLast none [x0, x1, x2]) a3)).2 :=
    revert_chain_step _ _ [x0, x1, x2] a3 hgA4 ⟨hdb2, hpv2, hh2⟩
  have hcl3 : chainLast none [x0, x1, x2] = some (mkRow (chainLast none [x0, x1]) x2) :=
    chainLast_snoc [x0, x1] none x2
  obtain ⟨ctx2, db2, hsave4, hcs4⟩ :=
    save_append_step client fuel _ _ [x0, x1, x2] b3 hgA3 hcs3
      (by rw [hb3i]; simp)
      (by
        intro p hp
        rw [hcl3] at hp
        injection hp with hp2
        rw [← hp2, mkRow_hash, hb3p])
  refine ⟨ctx2, db2, ?_, ?_, hcs4⟩
  · rw [hstep1, hstep2, hstep3]
    exact hsave4
  · have h1 := hcs4.2.2
    simp only [List.length_append, List.length_cons, List.length_nil] at h1
    omega

/-- Witness for C1 (amended): the concrete divergence scenario of chains A
and B ends at height 3 with B0..B3 committed. -/
theorem fork_resolution_divergence_point_witness :
    ∃ ctx2 db2, save demoClient (6 + 4) ctxA dbA (chainB.getD 5 default) =
        Except.ok (ctx2, db2) ∧
      ctx2.currentHeight = 3 ∧
      ChainState [chainB.getD 0 default, chainB.getD 1 default, chainB.getD 2 default,
        chainB.getD 3 default] ctx2 db2 :=
  fork_resolution_divergence_point demoClient 6
    (chainB.getD 0 default) (chainB.getD 1 default) (chainB.getD 2 default)
    (chainA.getD 3 default) (chainA.getD 4 default) (chainA.getD 5 default)
    (chainB.getD 3 default) (chainB.getD 4 default) (chainB.getD 5 default)
    ctxA dbA
    (by with_unfolding_all decide)
    (by with_unfolding_all decide)
    (by decide) (by decide) (by decide)
    (by decide) (by decide)
    (by with_unfolding_all decide)

/-- C5: a contract is classified as a token contract iff its hash is not
blacklisted and its script contains all six hex-encoded NEP5 method names;
a token-classified contract (with its metadata queries answering) produces a
ContractProjection row tagged `NEP5_CONTRACT_TYPE` and an AssetProjection row
with type `"NEP5"`; an unknown-classified contract produces the
`UNKNOWN_CONTRACT_TYPE` tag and no AssetProjection row. -/
theorem nep5_classification (context : Context) (q : Nep5Queries)
    (tx : ConfirmedTransaction) (c : Contract) (bi bt : Int)
    (nm sy : String) (dec : ℚ)
    (hn : q.name = Except.ok nm) (hs : q.symbol = Except.ok sy)
    (hd : q.decimals = Except.ok dec) :
    (checkIsNEP5 context c = true ↔
      (context.blacklistNEP5Hashes.contains c.hash = false ∧
        ∀ a ∈ NEP5_ATTRIBUTES, stringIncludes c.script a = true)) ∧
    (checkIsNEP5 context c = true →
      ∃ res, getContractAndAsset context q tx c bi bt = Except.ok res ∧
        res.contract.type = NEP5_CONTRACT_TYPE ∧
        ∃ a, res.asset = some a ∧ a.type = "NEP5") ∧
    (checkIsNEP5 context c = false →
      ∃ res, getContractAndAsset context q tx c bi bt = Except.ok res ∧
        res.contract.type = UNKNOWN_CONTRACT_TYPE ∧ res.asset = none) := by
  refine ⟨?_, ?_, ?_⟩
  · unfold checkIsNEP5
    by_cases hb : context.blacklistNEP5Hashes.contains c.hash = true
    · rw [if_pos hb]
      constructor
      · intro hf
        exact absurd hf (by simp)
      · rintro ⟨hb2, -⟩
        rw [hb2] at hb
        exact absurd hb (by simp)
    · rw [if_neg hb]
      simp only [List.all_eq_true]
      constructor
      · intro hall
        exact ⟨by simpa using hb, hall⟩
      · rintro ⟨-, hall⟩
        exact hall
  · intro ht
    unfold getContractAndAsset
    dsimp only
    rw [ht, if_pos (show (true : Bool) = true from rfl), hn, hs, hd]
    exact ⟨_, rfl, rfl, _, rfl, rfl⟩
  · intro hf
    unfold getContractAndAsset
    dsimp only
    rw [hf, if_neg (show ¬ ((false : Bool) = true) from by simp),
      if_neg (show ¬ ((false : Bool) = true) from by simp)]
    exact ⟨_, rfl, rfl, rfl⟩

/-- Witness for C5: `demoContract`, whose script carries all six sequences
and whose hash is not blacklisted, is classified NEP5 and yields the token
rows. -/
theorem nep5_classification_witness :
    (checkIsNEP5 startContext demoContract = true ↔
      (startContext.blacklistNEP5Hashes.contains demoContract.hash = false ∧
        ∀ a ∈ NEP5_ATTRIBUTES, stringIncludes demoContract.script a = true)) ∧
    (checkIsNEP5 startContext demoContract = true →
      ∃ res, getContractAndAsset startContext demoQueriesOk demoTxPublish demoContract
          3 99 = Except.ok res ∧
        res.contract.type = NEP5_CONTRACT_TYPE ∧
        ∃ a, res.asset = some a ∧ a.type = "NEP5") ∧
    (checkIsNEP5 startContext demoContract = false →
      ∃ res, getContractAndAsset startContext demoQueriesOk demoTxPublish demoContract
          3 99 = Except.ok res ∧
        res.contract.type = UNKNOWN_CONTRACT_TYPE ∧ res.asset = none) :=
  nep5_classification startContext demoQueriesOk demoTxPublish demoContract 3 99
    "Tok" "TK\"" 8 rfl rfl rfl

/-- C6: for a token-classified contract, a failing `totalSupply` query does
not fail the extraction — the produced AssetProjection's amount is zero;
failures of the `name`, `symbol` or `decimals` queries propagate to the
caller unchanged. -/
theorem totalSupply_fault_tolerance (context : Context) (q : Nep5Queries)
    (tx : ConfirmedTransaction) (c : Contract) (bi bt : Int) (e : String)
    (hnep : checkIsNEP5 context c = true) :
    (∀ nm sy dec, q.name = Except.ok nm → q.symbol = Except.ok sy →
      q.decimals = Except.ok dec → q.totalSupply = Except.error e →
      ∃ res a, getContractAndAsset context q tx c bi bt = Except.ok res ∧
        res.asset = some a ∧ a.amount = 0) ∧
    (q.name = Except.error e →
      getContractAndAsset context q tx c bi bt = Except.error e) ∧
    (∀ nm, q.name = Except.ok nm → q.symbol = Except.error e →
      getContractAndAsset context q tx c bi bt = Except.error e) ∧
    (∀ nm sy, q.name = Except.ok nm → q.symbol = Except.ok sy →
      q.decimals = Except.error e →
      getContractAndAsset context q tx c bi bt = Except.error e) := by
  refine ⟨?_, ?_, ?_, ?_⟩
  · intro nm sy dec hn hs hd hts
    unfold getContractAndAsset
    dsimp only
    rw [hnep, if_pos (show (true : Bool) = true from rfl), hn, hs, hd, hts]
    exact ⟨_, _, rfl, rfl, rfl⟩
  · intro hn
    unfold getContractAndAsset
    dsimp only
    rw [hnep, if_pos (show (true : Bool) = true from rfl), hn]
  · intro nm hn hs
    unfold getContractAndAsset
    dsimp only
    rw [hnep, if_pos (show (true : Bool) = true from rfl), hn, hs]
  · intro nm sy hn hs hd
    unfold getContractAndAsset
    dsimp only
    rw [hnep, if_pos (show (true : Bool) = true from rfl), hn, hs, hd]

/-- Witness for C6: with `totalSupply` rejecting, extraction succeeds with
amount 0; with `symbol` rejecting, the error propagates. -/
theorem totalSupply_fault_tolerance_witness :
    (∀ nm sy dec,
      ({ demoQueriesOk with totalSupply := Except.error "boom" } : Nep5Queries).name =
        Except.ok nm →
      ({ demoQueriesOk with totalSupply := Except.error "boom" } : Nep5Queries).symbol =
        Except.ok sy →
      ({ demoQueriesOk with totalSupply := Except.error "boom" } : Nep5Queries).decimals =
        Except.ok dec →
      ({ demoQueriesOk with totalSupply := Except.error "boom" } : Nep5Queries).totalSupply =
        Except.error "boom" →
      ∃ res a, getContractAndAsset startContext
          { demoQueriesOk with totalSupply := Except.error "boom" }
          demoTxPublish demoContract 3 99 = Except.ok res ∧
        res.asset = some a ∧ a.amount = 0) ∧
    (({ demoQueriesOk with totalSupply := Except.error "boom" } : Nep5Queries).name =
        Except.error "boom" →
      getContractAndAsset startContext
          { demoQueriesOk with totalSupply := Except.error "boom" }
          demoTxPublish demoContract 3 99 = Except.error "boom") ∧
    (∀ nm,
      ({ demoQueriesOk with totalSupply := Except.error "boom" } : Nep5Queries).name =
        Except.ok nm →
      ({ demoQueriesOk with totalSupply := Except.error "boom" } : Nep5Queries).symbol =
        Except.error "boom" →
      getContractAndAsset startContext
          { demoQueriesOk with totalSupply := Except.error "boom" }
          demoTxPublish demoContract 3 99 = Except.error "boom") ∧
    (∀ nm sy,
      ({ demoQueriesOk with totalSupply := Except.error "boom" } : Nep5Queries).name =
        Except.ok nm →
      ({ demoQueriesOk with totalSupply := Except.error "boom" } : Nep5Queries).symbol =
        Except.ok sy →
      ({ demoQueriesOk with totalSupply := Except.error "boom" } : Nep5Queries).decimals =
        Except.error "boom" →
      getContractAndAsset startContext
          { demoQueriesOk with totalSupply := Except.error "boom" }
          demoTxPublish demoContract 3 99 = Except.error "boom") :=
  totalSupply_fault_tolerance startContext
    { demoQueriesOk with totalSupply := Except.error "boom" }
    demoTxPublish demoContract 3 99 "boom" (by decide)

/-- C10: every AssetProjection row synthesized from a registration or
invocation asset descriptor stores `JSON.stringify` of the asset's name in
its symbol field — identical to `name_raw` — rather than an on-chain symbol;
only the NEP5 extraction path stores the queried symbol, unescaped, while
its `name_raw` is the stringified queried name. -/
theorem asset_symbol_is_stringified_name :
    (∀ (tx : ConfirmedTransaction) (bt : Int) (row : AssetRow),
      getAsset tx bt = some row →
      ∃ a, txAsset tx = some a ∧ row.symbol = jsonStringify a.name ∧
        row.name_raw = row.symbol) ∧
    (∀ (context : Context) (q : Nep5Queries) (tx : ConfirmedTransaction) (c : Contract)
        (bi bt : Int) (nm sy : String) (dec : ℚ) (res : ContractAndAsset) (a : AssetRow),
      checkIsNEP5 context c = true →
      q.name = Except.ok nm → q.symbol = Except.ok sy → q.decimals = Except.ok dec →
      getContractAndAsset context q tx c bi bt = Except.ok res →
      res.asset = some a →
      a.symbol = sy ∧ a.name_raw = jsonStringify nm) := by
  constructor
  · intro tx bt row h
    unfold getAsset at h
    cases hta : txAsset tx with
    | none =>
      rw [hta] at h
      exact Option.noConfusion h
    | some a =>
      rw [hta] at h
      dsimp only at h
      injection h with h2
      exact ⟨a, rfl, by rw [← h2], by rw [← h2]⟩
  · intro context q tx c bi bt nm sy dec res a hnep hn hs hd hres ha
    unfold getContractAndAsset at hres
    dsimp only at hres
    rw [hnep, if_pos (show (true : Bool) = true from rfl), hn, hs, hd] at hres
    injection hres with hres2
    rw [← hres2] at ha
    dsimp only at ha
    injection ha with ha2
    rw [← ha2]
    exact ⟨rfl, rfl⟩

/-- Witness for C10: the registration-path row stores the stringified asset
name in both `symbol` and `name_raw`; the NEP5-path row stores the raw
queried symbol and the stringified queried name. -/
theorem asset_symbol_is_stringified_name_witness :
    (∃ a, txAsset demoTxRegister = some a ∧
      ((getAsset demoTxRegister 99).getD default).symbol = jsonStringify a.name ∧
      ((getAsset demoTxRegister 99).getD default).name_raw =
        ((getAsset demoTxRegister 99).getD default).symbol) ∧
    ((((getContractAndAsset startContext demoQueriesOk demoTxPublish demoContract
          3 99).toOption.getD default).asset.getD default).symbol = "TK\"" ∧
      (((getContractAndAsset startContext demoQueriesOk demoTxPublish demoContract
          3 99).toOption.getD default).asset.getD default).name_raw =
        jsonStringify "Tok") :=
  ⟨asset_symbol_is_stringified_name.1 demoTxRegister 99
      ((getAsset demoTxRegister 99).getD default) (by with_unfolding_all decide),
    asset_symbol_is_stringified_name.2 startContext demoQueriesOk demoTxPublish
      demoContract 3 99 "Tok" "TK\"" 8
      ((getContractAndAsset startContext demoQueriesOk demoTxPublish demoContract
          3 99).toOption.getD default)
      ((((getContractAndAsset startContext demoQueriesOk demoTxPublish demoContract
          3 99).toOption.getD default).asset).getD default)
      (by decide) rfl rfl rfl
      (by with_unfolding_all decide) (by with_unfolding_all decide)⟩

end NeoTracker
